import Mathlib

/-!
Verification development for the Schools_of_Professors pipeline
(`src/pku_cv`): phase1 discovery (pagination crawl, name heuristics,
classification), phase2 enrichment (completeness status, keyed merge),
phase3 normalization (alias resolution, confidence gating, review queue),
and the shared JSON-fallback parsing in `utils.py`.

The embedding is shallow: pure Python helpers become Lean functions over
`List Char` / `String`; external collaborators (HTTP transport, HTML
parsing via BeautifulSoup, the DeepSeek client, `json.loads`) are
parameters of the embedded functions, exactly at the call boundary the
source uses.  Python dicts are modelled as insertion-ordered association
lists, matching CPython's documented dict semantics.
-/

namespace PkuCv

/-! ## Character and token utilities (phase1_discovery.py, utils.py) -/

/-- Whitespace as used by Python `str.strip` / `re \s` on the characters
this pipeline actually meets (space, tab, CR, LF). -/
def isWs (c : Char) : Bool := c.isWhitespace

/-- Membership of a character in the CJK unified-ideograph range
`[一-鿿]` used by `ZH_NAME_RE` and `safe_slug`. -/
def isCJK (c : Char) : Bool := 0x4e00 ≤ c.toNat && c.toNat ≤ 0x9fff

/-- Drop leading and trailing whitespace: Python `str.strip()`. -/
def stripL (l : List Char) : List Char :=
  ((l.dropWhile isWs).reverse.dropWhile isWs).reverse

/-- Accumulator-style splitter on whitespace, dropping empty pieces:
the word list underlying Python `str.split()` (no argument). -/
def wordsAux : List Char → List Char → List (List Char)
  | [], acc => if acc.isEmpty then [] else [acc.reverse]
  | c :: rest, acc =>
      if isWs c then
        if acc.isEmpty then wordsAux rest [] else acc.reverse :: wordsAux rest []
      else wordsAux rest (c :: acc)

/-- Whitespace-delimited words of a character list, empties dropped. -/
def words (l : List Char) : List (List Char) := wordsAux l []

/-- Join a list of words with a separator. -/
def joinWith (sep : List Char) : List (List Char) → List Char
  | [] => []
  | [w] => w
  | w :: rest => w ++ sep ++ joinWith sep rest

/-- Model of `_normalize_token`: `re.sub(r"\s+", " ", token.strip())`,
i.e. collapse every whitespace run to one space after stripping the
ends — equivalently, the single-space join of the token's words. -/
def normalizeTok (l : List Char) : List Char := joinWith [' '] (words l)

/-- Needle is a leading segment of hay (character-by-character). -/
def matchesAt : List Char → List Char → Bool
  | [], _ => true
  | _ :: _, [] => false
  | a :: as, b :: bs => a = b && matchesAt as bs

/-- Python substring membership `needle in hay` over characters:
true when the needle occurs contiguously anywhere in the hay
(an empty needle is always contained). -/
def containsSub (needle : List Char) : List Char → Bool
  | [] => matchesAt needle []
  | c :: rest => matchesAt needle (c :: rest) || containsSub needle rest

/-- String front-end of `containsSub`, Python `needle in hay`. -/
def strContains (needle hay : String) : Bool := containsSub needle.data hay.data

/-! ## Name heuristics (`phase1_discovery.py` lines 43-154) -/

/-- Curated Chinese stop-word set `STOPWORDS`. -/
def STOPWORDS : List (List Char) :=
  ["导航".data, "门户".data, "概况".data, "简介".data, "历史".data, "学院".data,
   "新闻".data, "公告".data, "招生".data, "校友".data, "联系".data, "首页".data,
   "教研人员".data, "教师队伍".data, "快速".data, "主页".data, "北大".data,
   "网络".data, "课题组".data, "组长".data, "在职".data, "教师".data]

/-- Curated English stop-word set `EN_STOPWORDS`. -/
def EN_STOPWORDS : List (List Char) :=
  ["home".data, "portal".data, "about".data, "overview".data, "news".data,
   "notice".data, "admission".data, "alumni".data, "contact".data,
   "faculty".data, "teacher".data, "staff".data, "research".data,
   "group".data, "navigation".data]

/-- Full match of `ZH_NAME_RE = ^[一-鿿]{2,4}$`. -/
def zhNameRe (t : List Char) : Bool :=
  decide (2 ≤ t.length) && decide (t.length ≤ 4) && t.all isCJK

/-- Checks of `_is_zh_name` on the already-stripped token: match the
CJK regex, reject exact or substring hits of the stop-word set. -/
def zhCore (t : List Char) : Bool :=
  if !zhNameRe t then false
  else if STOPWORDS.any (fun w => t = w) then false
  else if STOPWORDS.any (fun w => containsSub w t) then false
  else true

/-- Model of `_is_zh_name`: strip, then `zhCore`. -/
def isZhName (token : List Char) : Bool := zhCore (stripL token)

/-- Character class of `EN_WORD_RE`'s tail: `[A-Za-z\-'.]`. -/
def isEnWordChar (c : Char) : Bool :=
  c.isAlpha || c = '-' || c = '\'' || c = '.'

/-- Full match of `EN_WORD_RE = ^[A-Za-z][A-Za-z\-'.]*$`. -/
def enWordRe : List Char → Bool
  | [] => false
  | c :: rest => c.isAlpha && rest.all isEnWordChar

/-- Python `str.isupper` on an EN word: at least one letter, and every
letter upper-case (the only cased characters in scope are ASCII
letters). -/
def pyIsUpper (w : List Char) : Bool :=
  w.any Char.isAlpha && w.all (fun c => !c.isAlpha || c.isUpper)

/-- Python `str.islower` on an EN word tail: at least one letter, and
every letter lower-case (so the empty tail is not lower-case). -/
def pyIsLower (w : List Char) : Bool :=
  w.any Char.isAlpha && w.all (fun c => !c.isAlpha || c.isLower)

/-- Model of the inner `_is_word_valid`: fully upper-case, or a
capitalized head with a lower-case remainder. -/
def isWordValid (w : List Char) : Bool :=
  pyIsUpper w ||
    (match w with
     | [] => false
     | c :: rest => c.isUpper && pyIsLower rest)

/-- Checks of `_is_en_name` on the already-normalized token: reject
digits, 2-3 words each matching the word regex, reject
all-single-letter tokens, demand upper/capitalized words, reject
stop-word hits on the lowered token or any lowered word. -/
def enCore (t : List Char) : Bool :=
  if t.isEmpty then false
  else if t.any Char.isDigit then false
  else
    let ws := words t
    if decide (ws.length < 2) || decide (ws.length > 3) then false
    else if !ws.all enWordRe then false
    else if ws.all (fun w => w.length = 1) then false
    else if !ws.all isWordValid then false
    else
      let lower := t.map Char.toLower
      if EN_STOPWORDS.any (fun s => lower = s) then false
      else if EN_STOPWORDS.any (fun s => (words lower).any (fun w => w = s)) then false
      else true

/-- Model of `_is_en_name`: normalize, then `enCore`. -/
def isEnName (token : List Char) : Bool := enCore (normalizeTok token)

/-- Model of `_looks_like_name`: normalize, then either script form. -/
def looksLikeName (token : List Char) : Bool :=
  let t := normalizeTok token
  isZhName t || isEnName t

/-- Model of `_name_type`: strip, then `"zh"`, `"en"`, or `""`. -/
def nameType (token : List Char) : String :=
  let t := stripL token
  if isZhName t then "zh" else if isEnName t then "en" else ""

/-- String front-end of `looksLikeName`. -/
def looksLikeNameS (s : String) : Bool := looksLikeName s.data

/-- String front-end of `nameType`. -/
def nameTypeS (s : String) : String := nameType s.data

/-! ## JSON fallback parsing (`utils.py` lines 78-118) -/

/-- Shape of a parsed JSON value, as far as the pipeline inspects it
(`isinstance(value, dict)` / `isinstance(value, list)` plus the items
themselves). -/
inductive Json where
  | str : String → Json
  | num : Int → Json
  | obj : List (String × Json) → Json
  | arr : List Json → Json
  | null : Json
deriving Repr

/-- String wrapper for `stripL`, Python `str.strip()`. -/
def pyStripS (s : String) : String := ⟨stripL s.data⟩

/-- Model of the match of `re.search(r"\{[\s\S]*\}", t)`: greedy, so it
spans from the first `{` to the last `}` of the whole text, provided
that `}` comes after that `{`; no match otherwise. -/
def greedyBraceSpan (l : List Char) : Option (List Char) :=
  let fromBrace := l.dropWhile (fun c => c ≠ '{')
  if fromBrace.isEmpty then none
  else
    let span := (fromBrace.reverse.dropWhile (fun c => c ≠ '}')).reverse
    if 2 ≤ span.length then some span else none

/-- Model of the match of `re.search(r"\[[\s\S]*\]", t)`: greedy span
from the first `[` to the last `]` after it. -/
def greedyBracketSpan (l : List Char) : Option (List Char) :=
  let fromBracket := l.dropWhile (fun c => c ≠ '[')
  if fromBracket.isEmpty then none
  else
    let span := (fromBracket.reverse.dropWhile (fun c => c ≠ ']')).reverse
    if 2 ≤ span.length then some span else none

/-- Model of `parse_json_obj`, with `json.loads` passed in as the
collaborator `loads` (`none` models a raised `JSONDecodeError`).
Strip; empty text gives `{}`; a parse of the whole text returns its
entries when it is a dict and `{}` otherwise; on a parse error the
greedy `\{[\s\S]*\}` span is parsed, any failure or non-dict giving
`{}`. -/
def parseJsonObj (loads : String → Option Json) (text : String) : List (String × Json) :=
  let t := pyStripS text
  if t = "" then []
  else
    match loads t with
    | some (.obj entries) => entries
    | some _ => []
    | none =>
      match greedyBraceSpan t.data with
      | none => []
      | some span =>
        match loads ⟨span⟩ with
        | some (.obj entries) => entries
        | _ => []

/-- Model of `parse_json_list`, with `json.loads` as `loads` and
Python `str(item)` as `itemStr`.  Strip; empty gives `[]`; a whole-text
parse returns the trimmed non-empty item strings only when the value is
a list (a successful non-list parse falls through, unlike
`parse_json_obj`); then the greedy `\[[\s\S]*\]` span is parsed the
same way, every failure giving `[]`. -/
def parseJsonList (loads : String → Option Json) (itemStr : Json → String)
    (text : String) : List String :=
  let t := pyStripS text
  if t = "" then []
  else
    let fromItems : List Json → List String := fun items =>
      (items.map (fun item => pyStripS (itemStr item))).filter (fun s => s ≠ "")
    let fallback : List String :=
      match greedyBracketSpan t.data with
      | none => []
      | some span =>
        match loads ⟨span⟩ with
        | some (.arr items) => fromItems items
        | _ => []
    match loads t with
    | some (.arr items) => fromItems items
    | some _ => fallback
    | none => fallback

/-- Modelled from the spec: "core extracts the first balanced `{...}`
or `[...]` substring as fallback parse".  Walks from an opening
delimiter tracking nesting depth and returns the segment that closes
the first opener. -/
def balancedFrom (opener closer : Char) : List Char → Nat → List Char → Option (List Char)
  | [], _, _ => none
  | c :: rest, depth, acc =>
    if c = opener then balancedFrom opener closer rest (depth + 1) (c :: acc)
    else if c = closer then
      match depth with
      | 0 => none
      | 1 => some ((c :: acc).reverse)
      | d + 2 => balancedFrom opener closer rest (d + 1) (c :: acc)
    else balancedFrom opener closer rest depth (c :: acc)

/-- Modelled from the spec: the first balanced `{...}` substring of a
text, as the spec's fallback-parse description reads. -/
def firstBalancedBrace (l : List Char) : Option (List Char) :=
  let fromBrace := l.dropWhile (fun c => c ≠ '{')
  if fromBrace.isEmpty then none else balancedFrom '{' '}' fromBrace 0 []

/-- Model of `json.loads` at the three strings the C9 counterexample
touches: it succeeds exactly on the balanced object `{"a": "b"}` (real
`json.loads` parses it to `{"a": "b"}`), and fails on the full prose
text and on the greedy first-`{`-to-last-`}` span `{"a": "b"} done}`,
neither of which is valid JSON. -/
def loadsCEx : String → Option Json := fun s =>
  if s = "\x7b\"a\": \"b\"\x7d" then some (.obj [("a", .str "b")]) else none

/-! ## Pagination crawl (`phase1_discovery.py` lines 187-327) -/

/-- Model of `_extract_signature`: the `"|"`-join of the first 20
candidate names found on the page, with the page-pair collection
(BeautifulSoup work in `_collect_candidate_pairs`) passed in as the
collaborator `extractPairs html pageUrl`. -/
def extractSignature (extractPairs : String → String → List (String × String))
    (html : String) : String :=
  String.intercalate "|" (((extractPairs html "").map Prod.fst).take 20)

/-- One listing page captured by the static request strategy. -/
structure ReqPage where
  url : String
  pageIndex : Nat
  html : String
deriving Repr, DecidableEq

/-- Loop body of `_discover_with_requests`: `fuel` counts the listing
pages the `for page_index in range(1, max_pages_per_seed + 1)` loop may
still attempt; a URL already in `visited` breaks before fetching;
otherwise the page is fetched and recorded and the crawl follows the
next link when `_find_next_url` (collaborator `findNext`) yields one. -/
def requestsCrawlAux (fetch : String → String) (findNext : String → String → Option String) :
    Nat → Nat → List String → String → List ReqPage
  | 0, _, _, _ => []
  | fuel + 1, pageIndex, visited, current =>
    if current ∈ visited then []
    else
      let html := fetch current
      let row : ReqPage := ⟨current, pageIndex, html⟩
      match findNext current html with
      | none => [row]
      | some next =>
          row :: requestsCrawlAux fetch findNext fuel (pageIndex + 1) (current :: visited) next

/-- Model of `_discover_with_requests` for one seed: transport `fetch`
and link discovery `findNext` are collaborators, the loop state
(visited set, current URL, page ordinal) is the source's. -/
def requestsCrawl (fetch : String → String) (findNext : String → String → Option String)
    (startUrl : String) (maxPages : Nat) : List ReqPage :=
  requestsCrawlAux fetch findNext maxPages 1 [] startUrl

/-- One listing page captured by the rendered-browser strategy. -/
structure PwPage where
  pageIndex : Nat
  html : String
deriving Repr, DecidableEq

/-- Loop body of `_discover_with_playwright`: `clicks` counts successful
"next" clicks so far and indexes the rendered content stream `content`;
the signature-repeat counter and last signature evolve exactly as in
the source (`repeat_count` resets on a fresh or empty signature, the
loop breaks once it reaches 2, then on a failed click, then on fuel);
`nextRep` is the source's `repeat_count` update. -/
def nextRep (s lastSig : String) (repCount : Nat) : Nat :=
  if s ≠ "" && s = lastSig then repCount + 1 else 0

/-- Recursive loop of `_discover_with_playwright`; see `nextRep`. -/
def playwrightAux (content : Nat → String) (sigOf : String → String)
    (clickNext : Nat → Bool) :
    Nat → Nat → String → Nat → List PwPage
  | 0, _, _, _ => []
  | fuel + 1, clicks, lastSig, repCount =>
    let html := content clicks
    let row : PwPage := ⟨clicks + 1, html⟩
    let s := sigOf html
    let rep2 := nextRep s lastSig repCount
    if 2 ≤ rep2 then [row]
    else if clickNext clicks then row :: playwrightAux content sigOf clickNext fuel (clicks + 1) s rep2
    else [row]

/-- Model of `_discover_with_playwright` for one seed: the rendered
content after each successful click and the click outcomes are
collaborators; signature comparison drives early termination. -/
def playwrightCrawl (content : Nat → String) (sigOf : String → String)
    (clickNext : Nat → Bool) (maxPages : Nat) : List PwPage :=
  playwrightAux content sigOf clickNext maxPages 0 "" 0

/-- The concrete page-pair collector for closed C4 instances: the whole
page text is its single candidate name, so the extracted signature of
content `h` is `h` itself. -/
def pairsCEx : String → String → List (String × String) := fun html _ => [(html, "")]

/-! ## Batched fail-open classification (`phase1_discovery.py` lines 330-366) -/

/-- Insertion of a string into a ≤-sorted list. -/
def insertSorted (s : String) : List String → List String
  | [] => [s]
  | a :: t => if s ≤ a then s :: a :: t else a :: insertSorted s t

/-- Insertion sort on strings (Python `sorted` over codepoints). -/
def sortStr (l : List String) : List String := l.foldr insertSorted []

/-- Model of Python `sorted(set(xs))`: distinct elements in order. -/
def sortedDedup (l : List String) : List String := sortStr l.dedup

/-- Batch chunker state machine: `cur` is the batch being filled
(reversed) and `rem` its remaining capacity; a full batch is emitted
and a fresh one started. -/
def chunksGo : List String → List String → Nat → List (List String)
  | [], cur, _ => if cur.isEmpty then [] else [cur.reverse]
  | x :: rest, cur, rem =>
      match rem with
      | 0 => cur.reverse :: chunksGo rest [x] 59
      | r + 1 => chunksGo rest (x :: cur) r

/-- Batches of at most 60, consecutive groups in order, as
`range(0, len(xs), batch_size)` slices them with the source's
hard-coded `batch_size = 60`. -/
def chunks60 (l : List String) : List (List String) := chunksGo l [] 60

/-- Outcome of one batch in `_filter_names_with_deepseek`: a successful
capability call keeps the returned names that pass the heuristic, any
exception (call or parse) accepts the whole batch — fail open. -/
def batchDecision (oracle : List String → Except Unit (List String))
    (batch : List String) : List String :=
  match oracle batch with
  | .ok names => names.filter looksLikeNameS
  | .error _ => batch

/-- Model of `_filter_names_with_deepseek`: empty candidate lists short
out; a disabled client returns the sorted deduplicated heuristic
passers; otherwise the heuristic passers are chunked into batches of 60
and the union of the batch decisions is returned sorted and
deduplicated. -/
def filterNamesWithDeepseek (enabled : Bool)
    (oracle : List String → Except Unit (List String))
    (candidates : List String) : List String :=
  if candidates.isEmpty then []
  else
    let deterministic := candidates.filter looksLikeNameS
    if !enabled then sortedDedup deterministic
    else
      sortedDedup ((chunks60 deterministic).foldl
        (fun acc batch => acc ++ batchDecision oracle batch) [])

/-! ## Records and keyed stores (phase1/2/3 merge maps) -/

/-- Row of `listing_pages.jsonl` as built by both discovery strategies. -/
structure ListingRow where
  department_name_zh : String
  school_name_zh : String
  seed_faculty_list_url : String
  listing_page_url : String
  page_index : Nat
  seed_row_index : Nat
  html_path : String
  crawl_date : String
deriving Repr, DecidableEq

/-- Row of `name_candidates.jsonl`. -/
structure CandidateRow where
  department_name_zh : String
  school_name_zh : String
  name_candidate : String
  profile_url : String
  html_path : String
  listing_page_url : String
  seed_row_index : Nat
  crawl_date : String
deriving Repr, DecidableEq

/-- Row of `professor_names.jsonl`. -/
structure ProfessorRow where
  department_name_zh : String
  school_name_zh : String
  name_zh : String
  name_en : String
  profile_url : String
  source : String
  crawl_date : String
deriving Repr, DecidableEq

/-- Row of `enriched.jsonl` (phase3's normalized rows share this
shape: `dict(row)` copies every field and replaces three of them). -/
structure EnrichedRow where
  department_name_zh : String
  school_name_zh : String
  name_zh : String
  name_en : String
  title : String
  profile_url : String
  bs_school : String
  ms_school : String
  phd_school : String
  join_pku_year : String
  status : String
  notes : String
  crawl_date : String
deriving Repr, DecidableEq

/-- Python `"|".join(parts)`. -/
def joinKey (parts : List String) : String := String.intercalate "|" parts

/-- Python `str(n or "")` on a non-negative integer field: `0` is falsy
and becomes the empty string. -/
def pyOrEmptyNat (n : Nat) : String := if n = 0 then "" else toString n

/-- Natural key of a listing row (phase1 lines 440-448): the stripped
`html_path` when non-empty, otherwise `seed_row_index|listing_page_url|page_index`. -/
def listingKey (r : ListingRow) : String :=
  let k := pyStripS r.html_path
  if k = "" then joinKey [pyOrEmptyNat r.seed_row_index, r.listing_page_url, pyOrEmptyNat r.page_index]
  else k

/-- Natural key of a candidate row (phase1 lines 495-503). -/
def candidateKey (r : CandidateRow) : String :=
  joinKey [r.department_name_zh, r.school_name_zh, r.name_candidate, r.profile_url,
    r.listing_page_url]

/-- Natural key of a professor row (phase1 lines 571-578). -/
def professorKey (r : ProfessorRow) : String :=
  joinKey [r.department_name_zh, r.school_name_zh, r.name_zh, r.name_en]

/-- Natural key `_row_key` of an enriched row (phase2 lines 293-301,
phase3 lines 110-118). -/
def enrichedKey (r : EnrichedRow) : String :=
  joinKey [r.department_name_zh, r.school_name_zh, r.name_zh, r.name_en]

/-- Lookup in an insertion-ordered association list (Python `d[k]` /
`k in d`). -/
def alook [DecidableEq κ] (k : κ) : List (κ × α) → Option α
  | [] => none
  | (k', v) :: rest => if k' = k then some v else alook k rest

/-- Python `d[k] = v`: replace in place when the key exists, append
otherwise. -/
def upsert [DecidableEq κ] (k : κ) (v : α) : List (κ × α) → List (κ × α)
  | [] => [(k, v)]
  | (k', v') :: rest => if k' = k then (k, v) :: rest else (k', v') :: upsert k v rest

/-- Dict built by `for row in rows: d[keyFn(row)] = row` — last write
per key wins. -/
def fromRowsLast [DecidableEq κ] (keyFn : α → κ) (rows : List α) : List (κ × α) :=
  rows.foldl (fun m r => upsert (keyFn r) r m) []

/-- Dict built by `for row in rows: if key not in d: d[key] = row` —
first write per key wins (the professor-name store dedup). -/
def fromRowsFirst [DecidableEq κ] (keyFn : α → κ) (rows : List α) : List (κ × α) :=
  rows.foldl (fun m r => if (alook (keyFn r) m).isSome then m else m ++ [(keyFn r, r)]) []

/-- First-some choice on options. -/
def optOr : Option α → Option α → Option α
  | some v, _ => some v
  | none, o => o

/-- Professor rows sharing a natural key but differing in payload, for
the C2 counterexample: the phase1 professor-store dedup keeps the old
one. -/
def pOldCEx : ProfessorRow :=
  ⟨"物理学部", "物理学院", "张三", "", "", "phase1_discovery", "2024-01-01"⟩

/-- Newer professor row with the same natural key as `pOldCEx` but a
different payload. -/
def pNewCEx : ProfessorRow :=
  ⟨"物理学部", "物理学院", "张三", "", "http://x", "phase1_discovery", "2025-06-01"⟩

/-! ## Phase 2 enrichment (`phase2_enrich.py`) -/

/-- Model of `_completion_status`: `"complete"` exactly when the
stripped bachelor school, doctoral school and join-year are all
non-empty (Python string truthiness after `.strip()`). -/
def completionStatus (r : EnrichedRow) : String :=
  if pyStripS r.bs_school ≠ "" && pyStripS r.phd_school ≠ "" && pyStripS r.join_pku_year ≠ ""
  then "complete" else "incomplete"

/-- The final per-row status rewrite of phase2 `run`
(`row["status"] = _completion_status(row)`). -/
def setStatus (r : EnrichedRow) : EnrichedRow := { r with status := completionStatus r }

/-- Model of phase2 `run`: the whole per-item enrichment (`_enrich_one`
with its DeepSeek calls, profile fetches and error fallbacks) is the
collaborator `enrich`; resume filtering, the optional limit, the keyed
last-wins merge and the final status recomputation are the source's.
The worker pool is modelled in submission order (the `workers == 1`
path); harvest order only permutes `new_rows`. -/
def phase2Run (enrich : ProfessorRow → EnrichedRow) (names : List ProfessorRow)
    (existingRows : List EnrichedRow) (resume : Bool) (limit : Option Nat) :
    List EnrichedRow :=
  let existing := if resume then existingRows else []
  let existingKeys := existing.map enrichedKey
  let pending := names.filter (fun r => !(existingKeys.contains (professorKey r)))
  let pending :=
    match limit with
    | some l => if 0 < l then pending.take l else pending
    | none => pending
  let newRows := pending.map enrich
  let mergedRows := (fromRowsLast enrichedKey (existing ++ newRows)).map Prod.snd
  mergedRows.map setStatus

/-- Professor row fed to the C3 witness run. -/
def profWitness : ProfessorRow :=
  ⟨"工学部", "工学院", "李四", "", "", "phase1_discovery", "2025-01-01"⟩

/-- Enrichment collaborator for the C3 witness run. -/
def enrichWitness : ProfessorRow → EnrichedRow := fun p =>
  ⟨p.department_name_zh, p.school_name_zh, p.name_zh, p.name_en, "教授", "",
    "北京大学", "", "清华大学", "2015", "", "", "2025-01-02"⟩

/-- Record as it appears in the C3 witness run's output store. -/
def c3OutRow : EnrichedRow :=
  ⟨"工学部", "工学院", "李四", "", "教授", "", "北京大学", "", "清华大学", "2015",
    "complete", "", "2025-01-02"⟩

/-! ## Phase 3 normalization (`phase3_normalize.py`) -/

/-- Curated alias table `ALIAS_TO_STD` in declaration order. -/
def ALIAS_TO_STD : List (String × String) :=
  [("北大", "PKU"), ("北京大学", "PKU"), ("北京大学物理学院", "PKU"),
   ("北京大学物理系", "PKU"), ("中国科学院", "CAS"), ("中科院", "CAS"),
   ("中科院物理所", "CAS"), ("中国科学院物理研究所", "CAS"), ("清华大学", "THU"),
   ("复旦大学", "FDU"), ("上海交通大学", "SJTU"), ("浙江大学", "ZJU"),
   ("南京大学", "NJU"), ("中国科学技术大学", "USTC"), ("武汉大学", "WHU"),
   ("吉林大学", "JLU")]

/-- Model of `_map_deterministic`: empty text maps to `""`; an exact
alias hit returns its code; otherwise the first alias (in table order)
contained in the text wins; `none` models Python `None` (unresolved). -/
def mapDeterministic (name : String) : Option String :=
  let text := pyStripS name
  if text = "" then some ""
  else
    match alook text ALIAS_TO_STD with
    | some std => some std
    | none => (ALIAS_TO_STD.find? (fun p => p.1 ≠ "" && strContains p.1 text)).map Prod.snd

/-- Parsed classifier payload (the dict `_map_with_deepseek` reads
after `parse_json_obj`): proposed code, confidence, reason.  Python
floats are modelled as rationals; the pipeline only compares them. -/
structure ClassifyPayload where
  abbr : String
  confidence : ℚ
  reason : String
deriving Repr, DecidableEq

/-- ASCII upper-casing, Python `str.upper()` on the codes in scope. -/
def pyUpperS (s : String) : String := ⟨s.data.map Char.toUpper⟩

/-- Model of `_map_with_deepseek`: blank names short out at confidence
1, a disabled client at 0; a successful capability call yields the
stripped upper-cased code with its confidence and reason, and any
exception yields `("", 0, error reason)`. -/
def mapWithDeepseek (enabled : Bool) (oracle : String → Except Unit ClassifyPayload)
    (name : String) : String × ℚ × String :=
  if pyStripS name = "" then ("", 1, "empty")
  else if !enabled then ("", 0, "client_disabled")
  else
    match oracle name with
    | .ok payload => (pyUpperS (pyStripS payload.abbr), payload.confidence, pyStripS payload.reason)
    | .error _ => ("", 0, "deepseek_error")

/-- Row of `normalization_review.jsonl`. -/
structure ReviewRow where
  row_key : String
  field : String
  original_value : String
  model_abbr : String
  confidence : ℚ
  reason : String
  created_at : String
deriving Repr, DecidableEq

/-- Natural key of a review row (phase3 lines 153-162). -/
def reviewKey (r : ReviewRow) : String :=
  joinKey [r.row_key, r.field, r.original_value]

/-- The source's acceptance threshold `0.8`, written with explicit
numerator and denominator so that the kernel can evaluate comparisons
(`confGate_eq` checks it equals 8/10). -/
def confGate : ℚ := ⟨4, 5, by norm_num, by norm_num⟩

/-- Model of `_normalize_field`: empty values stay empty; deterministic
alias resolution wins; otherwise the classifier's code is accepted only
when non-empty with confidence at least 0.8 (`confGate`), else the
original text is kept and a review row carrying the original text,
proposed code, confidence and reason is emitted. -/
def normalizeField (enabled : Bool) (oracle : String → Except Unit ClassifyPayload)
    (today : String) (sourceValue rowKey fieldName : String) :
    String × Option ReviewRow :=
  let v := pyStripS sourceValue
  if v = "" then ("", none)
  else
    match mapDeterministic v with
    | some std => (std, none)
    | none =>
      let res := mapWithDeepseek enabled oracle v
      if res.1 ≠ "" && res.2.1 ≥ confGate then (res.1, none)
      else (v, some ⟨rowKey, fieldName, v, res.1, res.2.1, res.2.2, today⟩)

/-- One pending row of phase3's normalization loop: the three
institution fields are rewritten and up to three review rows emitted,
in field order. -/
def phase3Step (enabled : Bool) (oracle : String → Except Unit ClassifyPayload)
    (today : String) (acc : List EnrichedRow × List ReviewRow) (row : EnrichedRow) :
    List EnrichedRow × List ReviewRow :=
  let key := enrichedKey row
  let bs := normalizeField enabled oracle today row.bs_school key "bs_school"
  let ms := normalizeField enabled oracle today row.ms_school key "ms_school"
  let phd := normalizeField enabled oracle today row.phd_school key "phd_school"
  (acc.1 ++ [{ row with bs_school := bs.1, ms_school := ms.1, phd_school := phd.1 }],
   acc.2 ++ ([bs.2, ms.2, phd.2].reduceOption))

/-- Model of phase3 `run`.  The source's `run` defines a local helper
`row_key` and then rebinds that same name to a string inside the loop
over pending rows (line 129), so the later calls `row_key(row)` at
lines 148 and 150 raise `TypeError: 'str' object is not callable`
whenever at least one pending row was processed; the run then writes
nothing.  The model returns that error exactly when pending work
exists, and otherwise the merged normalized store (keyed by the record
key, last write wins) and the merged review store (keyed by
record-key|field|original-value). -/
def phase3Run (enabled : Bool) (oracle : String → Except Unit ClassifyPayload)
    (today : String) (rows : List EnrichedRow) (existingN : List EnrichedRow)
    (existingR : List ReviewRow) (resume : Bool) (limit : Option Nat) :
    Except String (List EnrichedRow × List ReviewRow) :=
  let rows :=
    match limit with
    | some l => if 0 < l then rows.take l else rows
    | none => rows
  let existingNorm := if resume then existingN else []
  let existingRev := if resume then existingR else []
  let existingKeys := existingNorm.map enrichedKey
  let pending :=
    if resume then rows.filter (fun r => !(existingKeys.contains (enrichedKey r))) else rows
  let processed := pending.foldl (phase3Step enabled oracle today) ([], [])
  if processed.1.isEmpty then
    .ok ((fromRowsLast enrichedKey (existingNorm ++ processed.1)).map Prod.snd,
         (fromRowsLast reviewKey (existingRev ++ processed.2)).map Prod.snd)
  else
    .error "TypeError: 'str' object is not callable"

/-- The counterexample confidence `0.4` with explicit numerator and
denominator (`conf04_eq` checks it equals 4/10). -/
def conf04 : ℚ := ⟨2, 5, by norm_num, by norm_num⟩

/-- Classifier that proposes `XX` at confidence 0.4 — below the 0.8
acceptance gate. -/
def lowConfOracle : String → Except Unit ClassifyPayload :=
  fun _ => .ok ⟨"XX", conf04, "guess"⟩

/-- Enriched record whose bachelor institution resolves neither exactly
nor by substring against the alias table. -/
def c5Row : EnrichedRow :=
  ⟨"理学部", "物理学院", "张三", "", "", "", "Unknown Institute X", "", "", "",
    "incomplete", "", "2025-01-01"⟩

/-! ## Phase 1 classification step (`phase1_discovery.py` lines 508-582) -/

/-- Model of the `school_candidates` grouping: a `defaultdict` keyed by
(department, school) holding per-school name→profile-url maps filled
with `setdefault` (first url per stripped name wins; empty names are
skipped). -/
def groupCandidates (rows : List CandidateRow) :
    List ((String × String) × List (String × String)) :=
  rows.foldl (fun acc r =>
    let key := (r.department_name_zh, r.school_name_zh)
    let name := pyStripS r.name_candidate
    let url := pyStripS r.profile_url
    if name = "" then acc
    else
      match alook key acc with
      | none => acc ++ [(key, [(name, url)])]
      | some m =>
        if (alook name m).isSome then acc
        else upsert key (m ++ [(name, url)]) acc) []

/-- Model of `existing_by_school` for one school: the stripped zh and
en names of every professor row of that (department, school). -/
def existingNamesFor (profRows : List ProfessorRow) (dept school : String) : List String :=
  profRows.foldl (fun acc r =>
    if r.department_name_zh = dept ∧ r.school_name_zh = school then
      let acc2 := if pyStripS r.name_zh ≠ "" then acc ++ [pyStripS r.name_zh] else acc
      if pyStripS r.name_en ≠ "" then acc2 ++ [pyStripS r.name_en] else acc2
    else acc) []

/-- Professor rows created for one (department, school) group: resume
filtering against the existing store, DeepSeek/heuristic filtering, and
record creation with the name routed into the zh or en slot by
`_name_type`. -/
def professorRowsForGroup (enabled : Bool)
    (oracle : String → String → List String → Except Unit (List String))
    (today : String) (existingP : List ProfessorRow) (resume : Bool)
    (g : (String × String) × List (String × String)) : List ProfessorRow :=
  let dept := g.1.1
  let school := g.1.2
  let allC := sortStr (g.2.map Prod.fst)
  let existingNames := if resume then existingNamesFor existingP dept school else []
  let cands := allC.filter (fun n => !(existingNames.contains n))
  if cands.isEmpty then []
  else
    (filterNamesWithDeepseek enabled (oracle school dept) cands).map (fun name =>
      ⟨dept, school, if nameTypeS name = "zh" then name else "",
        if nameTypeS name = "en" then name else "", "", "phase1_discovery", today⟩)

/-- All professor rows created by one classification run, across the
school groups in grouping order. -/
def phase1NewProfessorRows (enabled : Bool)
    (oracle : String → String → List String → Except Unit (List String))
    (today : String) (existingP : List ProfessorRow) (resume : Bool)
    (groups : List ((String × String) × List (String × String))) : List ProfessorRow :=
  groups.foldl
    (fun acc g => acc ++ professorRowsForGroup enabled oracle today existingP resume g) []

/-! ## Phase1 `run` (phase1_discovery.py lines 369-588) -/

/-- Row of the validated seed CSV, with the fields phase1 `run` reads. -/
structure SeedRow where
  department_name_zh : String
  school_name_zh : String
  faculty_list_url : String
deriving Repr, DecidableEq

/-- `processed_seed_indices` (phase1 lines 389-398): the seed indices
recorded on the existing listing rows (every modelled row carries one). -/
def processedSeedIndices (rows : List ListingRow) : List Nat :=
  rows.map (fun r => r.seed_row_index)

/-- Listing rows one seed contributes (phase1 lines 401-436): skipped
when resuming an already-processed index or when the start URL strips
to empty, otherwise whatever the crawl strategy returns for the seed. -/
def seedContribution (crawl : Nat → SeedRow → List ListingRow) (resume : Bool)
    (existingL : List ListingRow) (seedStart : Nat) (p : Nat × SeedRow) : List ListingRow :=
  if resume && (processedSeedIndices existingL).contains (seedStart + p.1) then []
  else if pyStripS p.2.faculty_list_url = "" then []
  else crawl (seedStart + p.1) p.2

/-- `listing_rows_new`: the concatenated per-seed contributions, the
seeds enumerated from `seed_start`. -/
def phase1ListingNew (crawl : Nat → SeedRow → List ListingRow) (seedStart : Nat)
    (resume : Bool) (existingL : List ListingRow) (seeds : List SeedRow) : List ListingRow :=
  seeds.enum.foldl (fun acc p => acc ++ seedContribution crawl resume existingL seedStart p) []

/-- `existing_candidate_html_paths` (phase1 lines 455-457): the stripped
html paths of the candidate rows whose path is truthy. -/
def candidateHtmlPaths (rows : List CandidateRow) : List String :=
  (rows.filter (fun r => r.html_path != "")).map (fun r => pyStripS r.html_path)

/-- Candidate rows extracted from one listing page (phase1 lines
469-491): the saved page content is re-read and each collected
name/profile pair becomes a row. -/
def candidateRowsFor (pairsOf : String → String → List (String × String))
    (htmlOf : String → Option String) (l : ListingRow) : List CandidateRow :=
  match htmlOf (pyStripS l.html_path) with
  | none => []
  | some content =>
    (pairsOf content (pyStripS l.listing_page_url)).map (fun nu =>
      ⟨l.department_name_zh, l.school_name_zh, nu.1, nu.2, pyStripS l.html_path,
        pyStripS l.listing_page_url, l.seed_row_index, l.crawl_date⟩)

/-- Contribution of one listing row to `candidate_rows_new` (phase1
lines 461-491): skipped on an empty path or, when resuming, on a path
already covered by the existing candidate store. -/
def listingContribution (pairsOf : String → String → List (String × String))
    (htmlOf : String → Option String) (resume : Bool) (existingC : List CandidateRow)
    (l : ListingRow) : List CandidateRow :=
  if pyStripS l.html_path = "" then []
  else if resume && (candidateHtmlPaths existingC).contains (pyStripS l.html_path) then []
  else candidateRowsFor pairsOf htmlOf l

/-- `candidate_rows_new`: the concatenated per-listing contributions,
iterating over the merged listing store. -/
def phase1CandidatesNew (pairsOf : String → String → List (String × String))
    (htmlOf : String → Option String) (resume : Bool) (existingC : List CandidateRow)
    (listingRows : List ListingRow) : List CandidateRow :=
  listingRows.foldl
    (fun acc l => acc ++ listingContribution pairsOf htmlOf resume existingC l) []

/-- Model of phase1 `run` from the validated seed slice on: crawl each
pending seed, merge the listing store (latest wins), extract and merge
candidates (latest wins), then classify per school group and merge the
professor store (first write wins). Returns the three stores written. -/
def phase1Run (crawl : Nat → SeedRow → List ListingRow)
    (pairsOf : String → String → List (String × String))
    (htmlOf : String → Option String) (enabled : Bool)
    (oracle : String → String → List String → Except Unit (List String))
    (today : String) (seedStart : Nat) (resume : Bool) (seeds : List SeedRow)
    (storeL : List ListingRow) (storeC : List CandidateRow) (storeP : List ProfessorRow) :
    List ListingRow × List CandidateRow × List ProfessorRow :=
  let existingL := if resume then storeL else []
  let listingRows := (fromRowsLast listingKey
    (existingL ++ phase1ListingNew crawl seedStart resume existingL seeds)).map Prod.snd
  let existingC := if resume then storeC else []
  let candidateRows := (fromRowsLast candidateKey
    (existingC ++ phase1CandidatesNew pairsOf htmlOf resume existingC listingRows)).map Prod.snd
  let existingP := if resume then storeP else []
  let professorRows := (fromRowsFirst professorKey
    (existingP ++ phase1NewProfessorRows enabled oracle today existingP resume
      (groupCandidates candidateRows))).map Prod.snd
  (listingRows, candidateRows, professorRows)

/-- Name contributions of one professor row to `existing_by_school`
(phase1 lines 527-538), restated per row. -/
def entryNames (dept school : String) (r : ProfessorRow) : List String :=
  if r.department_name_zh = dept ∧ r.school_name_zh = school then
    (if pyStripS r.name_zh ≠ "" then [pyStripS r.name_zh] else []) ++
    (if pyStripS r.name_en ≠ "" then [pyStripS r.name_en] else [])
  else []

/-- A crawl collaborator that finds no pages, for concrete checks. -/
def c1Crawl : Nat → SeedRow → List ListingRow := fun _ _ => []

/-- A per-name classification decision rejecting every candidate. -/
def c1G : String → String → String → Bool := fun _ _ _ => false

/-- A key-preserving enrichment collaborator: copies the four key
fields and fills nothing. -/
def c1EnrichW (p : ProfessorRow) : EnrichedRow :=
  ⟨p.department_name_zh, p.school_name_zh, p.name_zh, p.name_en, "", p.profile_url,
    "", "", "", "", "", "", p.crawl_date⟩

/-- Professor row with no English name (key `d|s|N|`). -/
def c1A : ProfessorRow := ⟨"d", "s", "N", "", "a", "", ""⟩

/-- Professor row with English name `M` (key `d|s|N|M`). -/
def c1B : ProfessorRow := ⟨"d", "s", "N", "M", "b", "", ""⟩

/-- An enrichment that writes `name_en` (as `_apply_payload` may): both
rows above then enrich to the same natural key `d|s|N|M`. -/
def c1EnrichCex (p : ProfessorRow) : EnrichedRow :=
  ⟨p.department_name_zh, p.school_name_zh, p.name_zh, "M", "", p.profile_url,
    "", "", "", "", "", "", p.crawl_date⟩

/-- C9 counterexample: on `Result: {"a": "b"} done}` — not itself valid
JSON, containing the balanced object `{"a": "b"}` followed by prose
with one more `}` — the source's greedy-regex fallback grabs
`{"a": "b"} done}`, which does not parse, so `parse_json_obj` returns
`{}` instead of the first balanced substring's value as the claim
states. -/
theorem c9_counterexample :
    loadsCEx "Result: \x7b\"a\": \"b\"\x7d done\x7d" = none ∧
    firstBalancedBrace "Result: \x7b\"a\": \"b\"\x7d done\x7d".data = some "\x7b\"a\": \"b\"\x7d".data ∧
    loadsCEx "\x7b\"a\": \"b\"\x7d" = some (.obj [("a", .str "b")]) ∧
    greedyBraceSpan "Result: \x7b\"a\": \"b\"\x7d done\x7d".data = some "\x7b\"a\": \"b\"\x7d done\x7d".data ∧
    parseJsonObj loadsCEx "Result: \x7b\"a\": \"b\"\x7d done\x7d" = [] ∧
    parseJsonObj loadsCEx "Result: \x7b\"a\": \"b\"\x7d done\x7d" ≠ [("a", Json.str "b")] := by
  exact ⟨rfl, by decide, rfl, by decide, rfl, fun h => List.noConfusion h⟩

/-- Dropping while a predicate holds ignores a leading block on which
it holds everywhere. -/
theorem dropWhile_append_all (pred : Char → Bool) (p r : List Char)
    (hp : p.all pred = true) : (p ++ r).dropWhile pred = r.dropWhile pred := by
  induction p with
  | nil => rfl
  | cons c t ih =>
    simp only [List.all_cons, Bool.and_eq_true] at hp
    simpa [List.dropWhile, hp.1] using ih hp.2

/-- The balanced-segment scanner is insensitive to what follows the
segment it returns. -/
theorem balancedFrom_append (op cl : Char) (l ext : List Char) (d : Nat)
    (acc r : List Char) (h : balancedFrom op cl l d acc = some r) :
    balancedFrom op cl (l ++ ext) d acc = some r := by
  induction l generalizing d acc with
  | nil => simp [balancedFrom] at h
  | cons c t ih =>
    rw [List.cons_append]
    unfold balancedFrom at h ⊢
    split_ifs at h ⊢ with h1 h2
    · exact ih _ _ h
    · cases d with
      | zero => simp at h
      | succ d' =>
        cases d' with
        | zero => exact h
        | succ d'' => exact ih _ _ h
    · exact ih _ _ h

/-- C9 amended: when the whole (stripped) response fails to parse, the
fallback hands `json.loads` the greedy span from the first `{` to the
last `}` and returns its entries when that parses as an object; the
greedy span and the spec's first balanced `{...}` substring coincide
exactly when no further `}` follows the balanced substring (the prose
before the object may not contain `{`, and the prose after it may
contain anything but `}`). -/
theorem c9_amended :
    (∀ (loads : String → Option Json) (text : String) (span : List Char)
        (e : List (String × Json)),
      pyStripS text ≠ "" →
      loads (pyStripS text) = none →
      greedyBraceSpan (pyStripS text).data = some span →
      loads ⟨span⟩ = some (.obj e) →
      parseJsonObj loads text = e) ∧
    (∀ p b q : List Char,
      p.all (fun c => c ≠ '{') = true →
      q.all (fun c => c ≠ '}') = true →
      b.head? = some '{' →
      b.getLast? = some '}' →
      firstBalancedBrace b = some b →
      greedyBraceSpan (p ++ b ++ q) = some b ∧
        firstBalancedBrace (p ++ b ++ q) = some b) := by
  constructor
  · intro loads text span e h1 h2 h3 h4
    simp only [parseJsonObj, if_neg h1, h2, h3, h4]
  · intro p b q hp hq hhead hlast hbal
    obtain ⟨b', rfl⟩ : ∃ b', b = '{' :: b' := by
      cases b with
      | nil => simp at hhead
      | cons c t =>
        simp only [List.head?_cons, Option.some.injEq] at hhead
        exact ⟨t, by rw [hhead]⟩
    obtain ⟨t, rfl⟩ : ∃ t, b' = t ++ ['}'] := by
      cases hb' : b'.reverse with
      | nil =>
        exfalso
        have hnil : b' = [] := by simpa using congrArg List.reverse hb'
        subst hnil; simp at hlast
      | cons c t =>
        have hb'' : b' = t.reverse ++ [c] := by
          have := congrArg List.reverse hb'
          simpa using this
        have hc : c = '}' := by
          rw [hb''] at hlast
          have : ('{' :: (t.reverse ++ [c])) = ('{' :: t.reverse) ++ [c] := by simp
          rw [this, List.getLast?_concat] at hlast
          exact (Option.some.injEq _ _ ▸ hlast).symm ▸ rfl
        exact ⟨t.reverse, by rw [hb'', hc]⟩
    -- the drop to the first `{` lands on `b ++ q`
    have hdrop : ((p ++ ('{' :: (t ++ ['}'])) ++ q).dropWhile (fun c => c ≠ '{'))
        = ('{' :: (t ++ ['}'])) ++ q := by
      rw [List.append_assoc, dropWhile_append_all _ p _ hp]
      simp [List.dropWhile]
    constructor
    · -- greedy span
      simp only [greedyBraceSpan, hdrop]
      rw [if_neg (by simp)]
      have hrev : (('{' :: (t ++ ['}'])) ++ q).reverse
          = q.reverse ++ ('}' :: (t.reverse ++ ['{'])) := by simp
      rw [hrev, dropWhile_append_all _ q.reverse _ (by simpa using hq)]
      have hstop : List.dropWhile (fun c => decide (c ≠ '}')) ('}' :: (t.reverse ++ ['{']))
          = '}' :: (t.reverse ++ ['{']) := by simp [List.dropWhile]
      rw [hstop]
      simp
    · -- balanced extraction
      simp only [firstBalancedBrace, hdrop]
      rw [if_neg (by simp)]
      have hfb : balancedFrom '{' '}' ('{' :: (t ++ ['}'])) 0 []
          = some ('{' :: (t ++ ['}'])) := by
        have hd : ('{' :: (t ++ ['}'])).dropWhile (fun c => c ≠ '{')
            = '{' :: (t ++ ['}']) := by simp [List.dropWhile]
        simpa [firstBalancedBrace, hd] using hbal
      exact balancedFrom_append _ _ _ q _ _ _ hfb

/-- Concrete instantiation of the amended C9 theorem: prose without a
stray closing brace, where the greedy span, the balanced substring and
the returned value all agree. -/
theorem c9_amended_witness :
    parseJsonObj loadsCEx "x \x7b\"a\": \"b\"\x7d y" = [("a", Json.str "b")] ∧
    greedyBraceSpan ("x ".data ++ "\x7b\"a\": \"b\"\x7d".data ++ " y".data)
      = some "\x7b\"a\": \"b\"\x7d".data ∧
    firstBalancedBrace ("x ".data ++ "\x7b\"a\": \"b\"\x7d".data ++ " y".data)
      = some "\x7b\"a\": \"b\"\x7d".data := by
  refine ⟨?_, ?_, ?_⟩
  · exact c9_amended.1 loadsCEx "x \x7b\"a\": \"b\"\x7d y" "\x7b\"a\": \"b\"\x7d".data
      [("a", Json.str "b")] (by decide) rfl (by decide) rfl
  · exact (c9_amended.2 "x ".data "\x7b\"a\": \"b\"\x7d".data " y".data
      (by decide) (by decide) (by decide) (by decide) (by decide)).1
  · exact (c9_amended.2 "x ".data "\x7b\"a\": \"b\"\x7d".data " y".data
      (by decide) (by decide) (by decide) (by decide) (by decide)).2

/-- Every crawl step of the static strategy stays off the visited set,
so the fetched URLs are pairwise distinct. -/
theorem requestsCrawlAux_nodup (fetch : String → String)
    (findNext : String → String → Option String) :
    ∀ (fuel pageIndex : Nat) (visited : List String) (current : String),
      ((requestsCrawlAux fetch findNext fuel pageIndex visited current).map (·.url)).Nodup ∧
      ∀ u ∈ (requestsCrawlAux fetch findNext fuel pageIndex visited current).map (·.url),
        u ∉ visited := by
  intro fuel
  induction fuel with
  | zero => intro pageIndex visited current; simp [requestsCrawlAux]
  | succ n ih =>
    intro pageIndex visited current
    unfold requestsCrawlAux
    split_ifs with hv
    · simp
    · rcases hnx : findNext current (fetch current) with _ | next
      · simp only [hnx]
        simpa using hv
      · simp only [hnx]
        obtain ⟨ihn, ihd⟩ := ih (pageIndex + 1) (current :: visited) next
        refine ⟨?_, ?_⟩
        · simp only [List.map_cons, List.nodup_cons]
          refine ⟨fun hc => ?_, ihn⟩
          exact (ihd _ hc) (List.mem_cons_self _ _)
        · intro u hu
          simp only [List.map_cons, List.mem_cons] at hu
          rcases hu with rfl | hu
          · exact hv
          · exact fun hmem => (ihd _ hu) (List.mem_cons_of_mem _ hmem)

/-- The static strategy produces at most `fuel` pages. -/
theorem requestsCrawlAux_length (fetch : String → String)
    (findNext : String → String → Option String) :
    ∀ (fuel pageIndex : Nat) (visited : List String) (current : String),
      (requestsCrawlAux fetch findNext fuel pageIndex visited current).length ≤ fuel := by
  intro fuel
  induction fuel with
  | zero => intro pageIndex visited current; simp [requestsCrawlAux]
  | succ n ih =>
    intro pageIndex visited current
    unfold requestsCrawlAux
    split_ifs with hv
    · simp
    · rcases hnx : findNext current (fetch current) with _ | next
      · simp [hnx]
      · simp only [hnx, List.length_cons]
        have := ih (pageIndex + 1) (current :: visited) next
        omega

/-- C10: within one seed crawl, the static request strategy fetches each
resolved URL at most once — the visited set makes the recorded listing
URLs pairwise distinct, for every transport, link structure, start URL
and page ceiling, with no fingerprint comparison involved. -/
theorem c10_requests_visited_guard (fetch : String → String)
    (findNext : String → String → Option String) (startUrl : String) (maxPages : Nat) :
    ((requestsCrawl fetch findNext startUrl maxPages).map (·.url)).Nodup := by
  exact (requestsCrawlAux_nodup fetch findNext maxPages 1 [] startUrl).1

/-- Closed instance of C10 on a concrete two-page crawl whose next link
loops back to the start URL: the crawl stops and the two fetched URLs
are distinct. -/
theorem c10_requests_visited_guard_witness :
    ((requestsCrawl (fun _ => "h") (fun u _ => if u = "a" then some "b" else some "a")
        "a" 9).map (·.url)).Nodup ∧
    (requestsCrawl (fun _ => "h") (fun u _ => if u = "a" then some "b" else some "a")
        "a" 9).map (·.url) = ["a", "b"] := by
  exact ⟨c10_requests_visited_guard _ _ _ _, by decide⟩

/-- The rendered-browser loop produces at most `fuel` pages. -/
theorem playwrightAux_length (content : Nat → String) (sigOf : String → String)
    (clickNext : Nat → Bool) :
    ∀ (fuel clicks : Nat) (lastSig : String) (repCount : Nat),
      (playwrightAux content sigOf clickNext fuel clicks lastSig repCount).length ≤ fuel := by
  intro fuel
  induction fuel with
  | zero => intro clicks lastSig repCount; simp [playwrightAux]
  | succ n ih =>
    intro clicks lastSig repCount
    unfold playwrightAux
    by_cases hrep : 2 ≤ nextRep (sigOf (content clicks)) lastSig repCount
    · rw [if_pos hrep]; simp
    · rw [if_neg hrep]
      by_cases hc : clickNext clicks = true
      · rw [if_pos hc]
        have := ih (clicks + 1) (sigOf (content clicks))
          (nextRep (sigOf (content clicks)) lastSig repCount)
        simp only [List.length_cons]
        omega
      · rw [if_neg hc]; simp

/-- With a constant non-empty signature and the repeat counter already
at 1, the rendered-browser loop emits at most one further page. -/
theorem playwrightAux_sig_one (content : Nat → String) (sigOf : String → String)
    (clickNext : Nat → Bool) (s : String) (hs : s ≠ "")
    (hsig : ∀ k, sigOf (content k) = s) :
    ∀ (fuel clicks : Nat),
      (playwrightAux content sigOf clickNext fuel clicks s 1).length ≤ 1 := by
  intro fuel clicks
  cases fuel with
  | zero => simp [playwrightAux]
  | succ n =>
    have h2 : nextRep s s 1 = 2 := by simp [nextRep, hs]
    simp [playwrightAux, hsig, h2]

/-- With a constant non-empty signature already seen once, the
rendered-browser loop emits at most two further pages. -/
theorem playwrightAux_sig_zero (content : Nat → String) (sigOf : String → String)
    (clickNext : Nat → Bool) (s : String) (hs : s ≠ "")
    (hsig : ∀ k, sigOf (content k) = s) :
    ∀ (fuel clicks : Nat),
      (playwrightAux content sigOf clickNext fuel clicks s 0).length ≤ 2 := by
  intro fuel clicks
  cases fuel with
  | zero => simp [playwrightAux]
  | succ n =>
    have h1 : nextRep s s 0 = 1 := by simp [nextRep, hs]
    simp only [playwrightAux, hsig, h1]
    rw [if_neg (by omega)]
    split_ifs with hc
    · have := playwrightAux_sig_one content sigOf clickNext s hs hsig n (clicks + 1)
      simp only [List.length_cons]
      omega
    · simp

/-- C4 counterexample: the static request strategy has no fingerprint
check, so with every fetched page carrying the same non-empty
signature (constant content "page", fresh next URLs each time) it still
crawls to the configured ceiling of 5 pages — past the third page the
claim allows. -/
theorem c4_counterexample :
    (requestsCrawl (fun _ => "page") (fun u _ => some (u ++ "x")) "s" 5).length = 5 ∧
    ((requestsCrawl (fun _ => "page") (fun u _ => some (u ++ "x")) "s" 5).map
        (fun r => extractSignature pairsCEx r.html)) =
      ["page", "page", "page", "page", "page"] ∧
    ("page" : String) ≠ "" := by
  exact ⟨by decide, by decide, by decide⟩

/-- C4 amended: both execution strategies respect the configured page
ceiling; the rendered-browser strategy additionally stops by the third
page when every rendered page yields one identical non-empty
fingerprint (two consecutive matches terminate); the static strategy
performs no fingerprint comparison and may continue to the ceiling on
content-identical pages, stopping early only on a missing next link or
a revisited URL. -/
theorem c4_amended :
    (∀ (fetch : String → String) (findNext : String → String → Option String)
        (startUrl : String) (maxPages : Nat),
      (requestsCrawl fetch findNext startUrl maxPages).length ≤ maxPages) ∧
    (∀ (content : Nat → String) (sigOf : String → String) (clickNext : Nat → Bool)
        (maxPages : Nat),
      (playwrightCrawl content sigOf clickNext maxPages).length ≤ maxPages) ∧
    (∀ (content : Nat → String) (sigOf : String → String) (clickNext : Nat → Bool)
        (maxPages : Nat) (s : String), s ≠ "" → (∀ k, sigOf (content k) = s) →
      (playwrightCrawl content sigOf clickNext maxPages).length ≤ 3) := by
  refine ⟨?_, ?_, ?_⟩
  · intro fetch findNext startUrl maxPages
    exact requestsCrawlAux_length fetch findNext maxPages 1 [] startUrl
  · intro content sigOf clickNext maxPages
    exact playwrightAux_length content sigOf clickNext maxPages 0 "" 0
  · intro content sigOf clickNext maxPages s hs hsig
    unfold playwrightCrawl
    cases maxPages with
    | zero => simp [playwrightAux]
    | succ n =>
      have h0 : nextRep s "" 0 = 0 := by simp [nextRep, hs]
      simp only [playwrightAux, hsig, h0]
      rw [if_neg (by omega)]
      split_ifs with h2
      · have := playwrightAux_sig_zero content sigOf clickNext s hs hsig n (0 + 1)
        simp only [List.length_cons]
        omega
      · simp

/-- Concrete instantiation of the amended C4 theorem: under the
rendered-browser strategy a constant non-empty fingerprint stops the
crawl within three pages even with a ceiling of 10. -/
theorem c4_amended_witness :
    ("page" : String) ≠ "" ∧
    (playwrightCrawl (fun _ => "page") (extractSignature pairsCEx)
        (fun _ => true) 10).length ≤ 3 := by
  refine ⟨by decide, ?_⟩
  exact c4_amended.2.2 (fun _ => "page") (extractSignature pairsCEx)
    (fun _ => true) 10 "page" (by decide) (fun _ => rfl)

/-- Membership in an insertion step. -/
theorem mem_insertSorted (s x : String) (l : List String) :
    x ∈ insertSorted s l ↔ x = s ∨ x ∈ l := by
  induction l with
  | nil => simp [insertSorted]
  | cons a t ih =>
    unfold insertSorted
    split_ifs with h
    · simp
    · simp [ih]
      tauto

/-- Sorting preserves membership. -/
theorem mem_sortStr (x : String) (l : List String) :
    x ∈ sortStr l ↔ x ∈ l := by
  induction l with
  | nil => simp [sortStr]
  | cons a t ih => simp [sortStr, mem_insertSorted] at *; tauto

/-- Insertion preserves distinctness when the element is fresh. -/
theorem nodup_insertSorted (s : String) (l : List String)
    (hl : l.Nodup) (hs : s ∉ l) : (insertSorted s l).Nodup := by
  induction l with
  | nil => simp [insertSorted]
  | cons a t ih =>
    unfold insertSorted
    split_ifs with h
    · exact List.nodup_cons.2 ⟨hs, hl⟩
    · rw [List.nodup_cons] at hl
      refine List.nodup_cons.2 ⟨?_, ih hl.2 (fun hmem => hs (List.mem_cons_of_mem _ hmem))⟩
      rw [mem_insertSorted]
      rintro (rfl | hmem)
      · exact hs (List.mem_cons_self _ _)
      · exact hl.1 hmem

/-- Sorting preserves distinctness. -/
theorem nodup_sortStr (l : List String) (hl : l.Nodup) : (sortStr l).Nodup := by
  induction l with
  | nil => simp [sortStr]
  | cons a t ih =>
    rw [List.nodup_cons] at hl
    exact nodup_insertSorted a _ (ih hl.2) (fun hmem => hl.1 ((mem_sortStr a t).1 hmem))

/-- Distinctness of `sorted(set(xs))`. -/
theorem nodup_sortedDedup (l : List String) : (sortedDedup l).Nodup :=
  nodup_sortStr _ l.nodup_dedup

/-- Membership of `sorted(set(xs))`. -/
theorem mem_sortedDedup (x : String) (l : List String) :
    x ∈ sortedDedup l ↔ x ∈ l := by
  rw [sortedDedup, mem_sortStr, List.mem_dedup]

/-- Invariant of the chunker: when the open batch and its remaining
capacity account for 60 slots, every emitted batch holds at most 60. -/
theorem chunksGo_batch_le :
    ∀ (l cur : List String) (rem : Nat), cur.length + rem = 60 →
      ∀ b ∈ chunksGo l cur rem, b.length ≤ 60 := by
  intro l
  induction l with
  | nil =>
    intro cur rem hcap b hb
    unfold chunksGo at hb
    split_ifs at hb with hcur
    · simp at hb
    · simp only [List.mem_singleton] at hb
      subst hb
      simp only [List.length_reverse]
      omega
  | cons x rest ih =>
    intro cur rem hcap b hb
    unfold chunksGo at hb
    cases rem with
    | zero =>
      rcases List.mem_cons.1 hb with rfl | hb'
      · simp only [List.length_reverse]; omega
      · exact ih [x] 59 (by simp) b hb'
    | succ r => exact ih (x :: cur) r (by simp at hcap ⊢; omega) b hb

/-- Every batch sliced by `chunks60` holds at most 60 names. -/
theorem chunks60_batch_le (l : List String) :
    ∀ b ∈ chunks60 l, b.length ≤ 60 :=
  chunksGo_batch_le l [] 60 rfl

/-- Folding batch decisions accumulates exactly their union. -/
theorem mem_foldl_batches (oracle : List String → Except Unit (List String))
    (batches : List (List String)) :
    ∀ (acc : List String) (x : String),
      (x ∈ batches.foldl (fun a b => a ++ batchDecision oracle b) acc ↔
        x ∈ acc ∨ ∃ b ∈ batches, x ∈ batchDecision oracle b) := by
  induction batches with
  | nil => intro acc x; simp
  | cons hd tl ih =>
    intro acc x
    simp only [List.foldl_cons]
    rw [ih (acc ++ batchDecision oracle hd) x]
    constructor
    · rintro (hmem | ⟨b, hb, hx⟩)
      · rcases List.mem_append.1 hmem with h | h
        · exact Or.inl h
        · exact Or.inr ⟨hd, List.mem_cons_self _ _, h⟩
      · exact Or.inr ⟨b, List.mem_cons_of_mem _ hb, hx⟩
    · rintro (h | ⟨b, hb, hx⟩)
      · exact Or.inl (List.mem_append.2 (Or.inl h))
      · rcases List.mem_cons.1 hb with rfl | hb'
        · exact Or.inl (List.mem_append.2 (Or.inr hx))
        · exact Or.inr ⟨b, hb', hx⟩

/-- C7: with the capability enabled, heuristic passers go out in
batches of at most 60; the accepted set is distinct and is exactly the
union of the per-batch decisions, so every candidate of a batch whose
capability call or processing fails is included (fail open) rather than
dropped. -/
theorem c7_fail_open_batches (oracle : List String → Except Unit (List String))
    (candidates : List String) :
    (∀ b ∈ chunks60 (candidates.filter looksLikeNameS), b.length ≤ 60) ∧
    (filterNamesWithDeepseek true oracle candidates).Nodup ∧
    (candidates ≠ [] →
      ∀ x, x ∈ filterNamesWithDeepseek true oracle candidates ↔
        ∃ b ∈ chunks60 (candidates.filter looksLikeNameS), x ∈ batchDecision oracle b) ∧
    (candidates ≠ [] →
      ∀ b ∈ chunks60 (candidates.filter looksLikeNameS), oracle b = .error () →
        ∀ c ∈ b, c ∈ filterNamesWithDeepseek true oracle candidates) := by
  have hmem : candidates ≠ [] →
      ∀ x, x ∈ filterNamesWithDeepseek true oracle candidates ↔
        ∃ b ∈ chunks60 (candidates.filter looksLikeNameS), x ∈ batchDecision oracle b := by
    intro hne x
    unfold filterNamesWithDeepseek
    rw [if_neg (by simpa [List.isEmpty_iff] using hne)]
    simp only [Bool.not_true, if_neg (by simp : ¬(false = true))]
    rw [mem_sortedDedup, mem_foldl_batches]
    simp
  refine ⟨?_, ?_, hmem, ?_⟩
  · exact chunks60_batch_le _
  · unfold filterNamesWithDeepseek
    split_ifs with h1 h2
    · simp
    · simp at h2
    · exact nodup_sortedDedup _
  · intro hne b hb herr c hc
    rw [hmem hne c]
    exact ⟨b, hb, by simp [batchDecision, herr, hc]⟩

/-- Concrete instantiation of C7: a two-candidate batch whose oracle
call fails is accepted wholesale. -/
theorem c7_fail_open_batches_witness :
    ("张三" : String) ∈ filterNamesWithDeepseek true (fun _ => .error ()) ["张三", "王五"] ∧
    ("王五" : String) ∈ filterNamesWithDeepseek true (fun _ => .error ()) ["张三", "王五"] := by
  constructor
  · exact (c7_fail_open_batches (fun _ => .error ()) ["张三", "王五"]).2.2.2
      (by decide) ["张三", "王五"] (by decide) rfl "张三" (by decide)
  · exact (c7_fail_open_batches (fun _ => .error ()) ["张三", "王五"]).2.2.2
      (by decide) ["张三", "王五"] (by decide) rfl "王五" (by decide)

/-- Lookup after a Python dict assignment. -/
theorem alook_upsert [DecidableEq κ] (k k' : κ) (v : α) (m : List (κ × α)) :
    alook k (upsert k' v m) = if k' = k then some v else alook k m := by
  induction m with
  | nil => by_cases h : k' = k <;> simp [upsert, alook, h]
  | cons p rest ih =>
    obtain ⟨k2, v2⟩ := p
    by_cases h1 : k2 = k'
    · subst h1
      by_cases h2 : k2 = k <;> simp [upsert, alook, h2]
    · by_cases h2 : k2 = k
      · subst h2
        have hk : ¬ k' = k2 := fun h => h1 h.symm
        simp [upsert, alook, h1, hk]
      · simp only [upsert, if_neg h1, alook, if_neg h2]
        exact ih

/-- Lookup distributes over append as first-some. -/
theorem alook_append [DecidableEq κ] (k : κ) (m m2 : List (κ × α)) :
    alook k (m ++ m2) = optOr (alook k m) (alook k m2) := by
  induction m with
  | nil => simp [alook, optOr]
  | cons p rest ih =>
    obtain ⟨k2, v2⟩ := p
    simp only [List.cons_append, alook]
    split_ifs with h
    · simp [optOr]
    · exact ih

/-- The last-wins dict maps each key to the final row bearing it. -/
theorem alook_fromRowsLast [DecidableEq κ] (keyFn : α → κ) (rows : List α) (k : κ) :
    alook k (fromRowsLast keyFn rows) = (rows.filter (fun r => keyFn r = k)).getLast? := by
  induction rows using List.reverseRecOn with
  | nil => simp [fromRowsLast, alook]
  | append_singleton rs r ih =>
    unfold fromRowsLast at ih ⊢
    rw [List.foldl_append, List.foldl_cons, List.foldl_nil, alook_upsert]
    rw [List.filter_append]
    by_cases h : keyFn r = k
    · rw [if_pos h]
      have : List.filter (fun r => decide (keyFn r = k)) [r] = [r] := by simp [h]
      rw [this, List.getLast?_append]
      simp
    · rw [if_neg h]
      have : List.filter (fun r => decide (keyFn r = k)) [r] = [] := by simp [h]
      rw [this, List.append_nil]
      exact ih

/-- Invariant form: the first-wins fold maps each key to what the
accumulator already holds, or else the first new row bearing it. -/
theorem alook_foldFirst [DecidableEq κ] (keyFn : α → κ) (rows : List α) :
    ∀ (acc : List (κ × α)) (k : κ),
      alook k (rows.foldl
          (fun m r => if (alook (keyFn r) m).isSome then m else m ++ [(keyFn r, r)]) acc)
        = optOr (alook k acc) ((rows.filter (fun r => keyFn r = k)).head?) := by
  induction rows with
  | nil =>
    intro acc k
    cases h : alook k acc <;> simp [optOr, h]
  | cons r rest ih =>
    intro acc k
    simp only [List.foldl_cons]
    by_cases hmem : (alook (keyFn r) acc).isSome
    · rw [if_pos hmem, ih acc k]
      by_cases hk : keyFn r = k
      · subst hk
        obtain ⟨w, hw⟩ := Option.isSome_iff_exists.1 hmem
        simp [hw, optOr, List.filter_cons]
      · simp [List.filter_cons, hk]
    · rw [if_neg hmem, ih (acc ++ [(keyFn r, r)]) k, alook_append]
      by_cases hk : keyFn r = k
      · subst hk
        have hnone : alook (keyFn r) acc = none := Option.not_isSome_iff_eq_none.1 hmem
        simp [hnone, alook, optOr, List.filter_cons]
      · simp only [List.filter_cons, hk]
        cases h : alook k acc with
        | some v => simp [optOr, h]
        | none =>
          simp only [optOr, h]
          simp [alook, hk]

/-- The first-wins dict maps each key to the first row bearing it. -/
theorem alook_fromRowsFirst [DecidableEq κ] (keyFn : α → κ) (rows : List α) (k : κ) :
    alook k (fromRowsFirst keyFn rows) = (rows.filter (fun r => keyFn r = k)).head? := by
  rw [fromRowsFirst, alook_foldFirst keyFn rows [] k]
  simp [alook, optOr]

/-- C2 counterexample: in the professor-name store (phase1 lines
569-581, `if key not in dedup`), a new record whose natural key equals
an existing record's key does NOT replace the old record — the merge
keeps the existing one. -/
theorem c2_counterexample :
    professorKey pOldCEx = professorKey pNewCEx ∧
    pOldCEx ≠ pNewCEx ∧
    alook (professorKey pNewCEx) (fromRowsFirst professorKey ([pOldCEx] ++ [pNewCEx]))
      = some pOldCEx := by
  refine ⟨by decide, by decide, by decide⟩

/-- C2 amended: the listing-page store and the enriched store merge
with latest-write-wins (each key maps to the last record bearing it,
existing records being inserted before new ones, so a new record with
an existing key replaces the old); the professor-name store is a
further exception beyond fill-only-if-missing stage logic — its dedup
is first-write-wins, so an existing record survives and a new record
with the same key is dropped. -/
theorem c2_amended :
    (∀ (existing newRows : List ListingRow) (k : String),
      alook k (fromRowsLast listingKey (existing ++ newRows))
        = ((existing ++ newRows).filter (fun r => listingKey r = k)).getLast?) ∧
    (∀ (existing : List EnrichedRow) (r : EnrichedRow),
      alook (enrichedKey r) (fromRowsLast enrichedKey (existing ++ [r])) = some r) ∧
    (∀ (existing newRows : List EnrichedRow) (k : String),
      alook k (fromRowsLast enrichedKey (existing ++ newRows))
        = ((existing ++ newRows).filter (fun r => enrichedKey r = k)).getLast?) ∧
    (∀ (existing newRows : List ProfessorRow) (k : String),
      alook k (fromRowsFirst professorKey (existing ++ newRows))
        = ((existing ++ newRows).filter (fun r => professorKey r = k)).head?) := by
  refine ⟨fun e n k => alook_fromRowsLast _ _ _, ?_, fun e n k => alook_fromRowsLast _ _ _,
    fun e n k => alook_fromRowsFirst _ _ _⟩
  intro existing r
  rw [alook_fromRowsLast]
  rw [List.filter_append]
  have hr : List.filter (fun x => decide (enrichedKey x = enrichedKey r)) [r] = [r] := by simp
  rw [hr, List.getLast?_append]
  simp

/-- Setting the status field does not change the derived status. -/
theorem completionStatus_set_status (r : EnrichedRow) (s : String) :
    completionStatus { r with status := s } = completionStatus r := rfl

/-- C3: completeness status is a pure derivation — `"complete"` iff the
stripped bachelor school, doctoral school and join-year are all
non-empty, `"incomplete"` otherwise — and phase2 recomputes it from
those three fields for every record (new or pre-existing) in the store
it writes, whatever the enrichment collaborator produced. -/
theorem c3_completion_status :
    (∀ r : EnrichedRow,
      (completionStatus r = "complete" ↔
        (pyStripS r.bs_school ≠ "" ∧ pyStripS r.phd_school ≠ "" ∧
          pyStripS r.join_pku_year ≠ "")) ∧
      (completionStatus r = "complete" ∨ completionStatus r = "incomplete")) ∧
    (∀ (enrich : ProfessorRow → EnrichedRow) (names : List ProfessorRow)
        (existingRows : List EnrichedRow) (resume : Bool) (limit : Option Nat),
      ∀ r ∈ phase2Run enrich names existingRows resume limit,
        r.status = completionStatus r) := by
  constructor
  · intro r
    constructor
    · unfold completionStatus
      split_ifs with h
      · simp only [Bool.and_eq_true, decide_eq_true_eq] at h
        exact ⟨fun _ => ⟨h.1.1, h.1.2, h.2⟩, fun _ => rfl⟩
      · constructor
        · intro hc; exact absurd hc (by decide)
        · intro hcond
          exact absurd (by simp [hcond.1, hcond.2.1, hcond.2.2] : _) h
    · unfold completionStatus
      split_ifs <;> simp
  · intro enrich names existingRows resume limit r hr
    unfold phase2Run at hr
    simp only [List.mem_map] at hr
    obtain ⟨r0, _, rfl⟩ := hr
    rfl

/-- Concrete instantiation of C3: the record written for `profWitness`
carries the recomputed status, which is `"complete"` here. -/
theorem c3_completion_status_witness :
    c3OutRow ∈ phase2Run enrichWitness [profWitness] [] true none ∧
    c3OutRow.status = completionStatus c3OutRow ∧
    c3OutRow.status = "complete" := by
  refine ⟨by decide, ?_, by decide⟩
  exact c3_completion_status.2 enrichWitness [profWitness] [] true none c3OutRow (by decide)

/-- Sanity: the gate constant is the source's 0.8. -/
theorem confGate_eq : confGate = 8 / 10 := by
  rw [confGate, Rat.mk'_eq_divInt, Rat.divInt_eq_div]
  norm_num

/-- Sanity: the low confidence constant is 0.4. -/
theorem conf04_eq : conf04 = 4 / 10 := by
  rw [conf04, Rat.mk'_eq_divInt, Rat.divInt_eq_div]
  norm_num

/-- C5: the confidence gate itself is implemented as claimed —
`_normalize_field` keeps the original text and emits exactly one review
item carrying the original text, proposed code, confidence and reason —
but phase3's `run` crashes with a `TypeError` before writing any store
whenever it has a pending row, because the loop rebinds its local
`row_key` helper to a string; so the review item is recorded zero
times, not exactly once, on the failing input. -/
theorem c5_review_gating_crash :
    normalizeField true lowConfOracle "2025-01-02" "Unknown Institute X"
        (enrichedKey c5Row) "bs_school"
      = ("Unknown Institute X",
         some ⟨enrichedKey c5Row, "bs_school", "Unknown Institute X", "XX",
           conf04, "guess", "2025-01-02"⟩) ∧
    ¬ (conf04 ≥ confGate) ∧
    phase3Run true lowConfOracle "2025-01-02" [c5Row] [] [] true none
      = .error "TypeError: 'str' object is not callable" := by
  refine ⟨rfl, by decide, rfl⟩

/-! ## Token normalization lemmas (towards the name-slot invariant) -/

/-- Scanning pure whitespace flushes the open word and stops. -/
theorem wordsAux_all_ws : ∀ (t : List Char), (∀ c ∈ t, isWs c = true) →
    ∀ acc : List Char, wordsAux t acc = if acc.isEmpty then [] else [acc.reverse] := by
  intro t
  induction t with
  | nil => intro _ acc; rfl
  | cons c t' ih =>
    intro ht acc
    have hc := ht c (List.mem_cons_self _ _)
    have ih' := ih (fun x hx => ht x (List.mem_cons_of_mem _ hx))
    unfold wordsAux
    rw [if_pos hc]
    by_cases ha : acc.isEmpty
    · rw [if_pos ha, if_pos ha, ih' []]
      rfl
    · rw [if_neg ha, if_neg ha, ih' []]
      rfl

/-- An open word always flushes into the result. -/
theorem wordsAux_acc_ne_nil : ∀ (l acc : List Char), acc ≠ [] → wordsAux l acc ≠ [] := by
  intro l
  induction l with
  | nil =>
    intro acc h
    unfold wordsAux
    rw [if_neg (by simpa [List.isEmpty_iff] using h)]
    simp
  | cons c rest ih =>
    intro acc h
    unfold wordsAux
    by_cases hc : isWs c
    · rw [if_pos hc, if_neg (by simpa [List.isEmpty_iff] using h)]
      simp
    · rw [if_neg hc]
      exact ih _ (by simp)

/-- A wordless scan means the input was pure whitespace. -/
theorem words_nil_all_ws : ∀ (l : List Char), wordsAux l [] = [] →
    ∀ c ∈ l, isWs c = true := by
  intro l
  induction l with
  | nil => intro _ c hc; simp at hc
  | cons c rest ih =>
    intro h x hx
    unfold wordsAux at h
    by_cases hc : isWs c
    · rw [if_pos hc, if_pos (by rfl)] at h
      rcases List.mem_cons.1 hx with rfl | hx'
      · exact hc
      · exact ih h x hx'
    · rw [if_neg hc] at h
      exact absurd h (wordsAux_acc_ne_nil rest [c] (by simp))

/-- Leading whitespace never contributes words. -/
theorem wordsAux_dropWhile (l : List Char) :
    wordsAux (l.dropWhile isWs) [] = wordsAux l [] := by
  induction l with
  | nil => rfl
  | cons c rest ih =>
    by_cases hc : isWs c
    · have hstep : wordsAux (c :: rest) [] = wordsAux rest [] := by
        conv_lhs => unfold wordsAux
        rw [if_pos hc, if_pos (by rfl)]
      rw [List.dropWhile_cons, if_pos hc, ih, hstep]
    · rw [List.dropWhile_cons, if_neg hc]

/-- Trailing whitespace never contributes words. -/
theorem wordsAux_append_ws (t : List Char) (ht : ∀ c ∈ t, isWs c = true) :
    ∀ (l acc : List Char), wordsAux (l ++ t) acc = wordsAux l acc := by
  intro l
  induction l with
  | nil =>
    intro acc
    rw [List.nil_append, wordsAux_all_ws t ht acc]
    rfl
  | cons c rest ih =>
    intro acc
    rw [List.cons_append]
    unfold wordsAux
    by_cases hc : isWs c
    · rw [if_pos hc, if_pos hc]
      by_cases ha : acc.isEmpty
      · rw [if_pos ha, if_pos ha, ih]
      · rw [if_neg ha, if_neg ha, ih]
    · rw [if_neg hc, if_neg hc, ih]

/-- A whitespace-free block accumulates verbatim. -/
theorem wordsAux_no_ws_block : ∀ (w : List Char), (∀ c ∈ w, isWs c = false) →
    ∀ (l acc : List Char), wordsAux (w ++ l) acc = wordsAux l (w.reverse ++ acc) := by
  intro w
  induction w with
  | nil => intro _ l acc; simp
  | cons c w' ih =>
    intro hw l acc
    have hc : isWs c = false := hw c (List.mem_cons_self _ _)
    have hstep : ∀ (m acc2 : List Char), wordsAux (c :: m) acc2 = wordsAux m (c :: acc2) := by
      intro m acc2
      conv_lhs => unfold wordsAux
      rw [if_neg (by simp [hc])]
    rw [List.cons_append, hstep, ih (fun x hx => hw x (List.mem_cons_of_mem _ hx)) l (c :: acc),
      show (c :: w').reverse ++ acc = w'.reverse ++ (c :: acc) by simp]

/-- Words of a single whitespace-free non-empty token. -/
theorem words_of_no_ws (w : List Char) (hne : w ≠ []) (hw : ∀ c ∈ w, isWs c = false) :
    words w = [w] := by
  have h := wordsAux_no_ws_block w hw [] []
  rw [List.append_nil] at h
  rw [words, h]
  unfold wordsAux
  rw [if_neg (by simpa [List.isEmpty_iff] using hne)]
  simp

/-- Every produced word is non-empty and whitespace-free. -/
theorem words_elems : ∀ (l acc : List Char), (∀ c ∈ acc, isWs c = false) →
    ∀ w ∈ wordsAux l acc, w ≠ [] ∧ ∀ c ∈ w, isWs c = false := by
  intro l
  induction l with
  | nil =>
    intro acc hacc w hw
    unfold wordsAux at hw
    split_ifs at hw with ha
    · simp at hw
    · simp only [List.mem_singleton] at hw
      subst hw
      refine ⟨by simpa [List.isEmpty_iff] using ha, ?_⟩
      intro c hc
      exact hacc c (List.mem_reverse.1 hc)
  | cons c rest ih =>
    intro acc hacc w hw
    unfold wordsAux at hw
    by_cases hc : isWs c
    · rw [if_pos hc] at hw
      by_cases ha : acc.isEmpty
      · rw [if_pos ha] at hw
        exact ih [] (by simp) w hw
      · rw [if_neg ha] at hw
        rcases List.mem_cons.1 hw with rfl | hw'
        · refine ⟨by simpa [List.isEmpty_iff] using ha, ?_⟩
          intro x hx
          exact hacc x (List.mem_reverse.1 hx)
        · exact ih [] (by simp) w hw'
    · rw [if_neg hc] at hw
      refine ih (c :: acc) ?_ w hw
      intro x hx
      rcases List.mem_cons.1 hx with rfl | hx'
      · simpa using hc
      · exact hacc x hx'

/-- Splitting a single-space join of non-empty whitespace-free words
recovers exactly those words. -/
theorem words_join : ∀ (L : List (List Char)),
    (∀ w ∈ L, w ≠ [] ∧ ∀ c ∈ w, isWs c = false) →
    words (joinWith [' '] L) = L := by
  intro L
  induction L with
  | nil => intro _; rfl
  | cons w rest ih =>
    intro hL
    obtain ⟨hwne, hwf⟩ := hL w (List.mem_cons_self _ _)
    cases rest with
    | nil => exact words_of_no_ws w hwne hwf
    | cons w' t =>
      have hrest := fun x hx => hL x (List.mem_cons_of_mem _ hx)
      show words (w ++ [' '] ++ joinWith [' '] (w' :: t)) = w :: w' :: t
      rw [words, List.append_assoc]
      rw [wordsAux_no_ws_block w hwf ([' '] ++ joinWith [' '] (w' :: t)) []]
      show wordsAux (' ' :: joinWith [' '] (w' :: t)) (w.reverse ++ []) = w :: w' :: t
      unfold wordsAux
      rw [if_pos (by decide)]
      rw [if_neg (by simpa [List.isEmpty_iff] using hwne)]
      rw [show wordsAux (joinWith [' '] (w' :: t)) [] = words (joinWith [' '] (w' :: t)) from rfl]
      rw [ih hrest]
      simp

/-- Normalization does not change the word list. -/
theorem words_norm (l : List Char) : words (normalizeTok l) = words l := by
  rw [normalizeTok]
  exact words_join (words l) (words_elems l [] (by simp))

/-- Normalization is idempotent. -/
theorem norm_idem (l : List Char) : normalizeTok (normalizeTok l) = normalizeTok l := by
  rw [show normalizeTok (normalizeTok l) = joinWith [' '] (words (normalizeTok l)) from rfl,
    words_norm]
  rfl

/-- Stripping does not change the word list. -/
theorem words_strip (l : List Char) : words (stripL l) = words l := by
  have hdecomp : l.dropWhile isWs
      = ((l.dropWhile isWs).reverse.dropWhile isWs).reverse
        ++ ((l.dropWhile isWs).reverse.takeWhile isWs).reverse := by
    conv_lhs => rw [← List.reverse_reverse (l.dropWhile isWs),
      ← List.takeWhile_append_dropWhile (p := isWs) (l := (l.dropWhile isWs).reverse)]
    rw [List.reverse_append]
  have htws : ∀ c ∈ ((l.dropWhile isWs).reverse.takeWhile isWs).reverse, isWs c = true := by
    intro c hc
    exact List.mem_takeWhile_imp (List.mem_reverse.1 hc)
  calc words (stripL l)
      = wordsAux (stripL l) [] := rfl
    _ = wordsAux (stripL l ++ ((l.dropWhile isWs).reverse.takeWhile isWs).reverse) [] :=
        (wordsAux_append_ws _ htws _ _).symm
    _ = wordsAux (l.dropWhile isWs) [] := by rw [stripL, ← hdecomp]
    _ = wordsAux l [] := wordsAux_dropWhile l
    _ = words l := rfl

/-- Normalizing a stripped token equals normalizing the token. -/
theorem norm_strip_arg (l : List Char) : normalizeTok (stripL l) = normalizeTok l := by
  rw [show normalizeTok (stripL l) = joinWith [' '] (words (stripL l)) from rfl, words_strip]
  rfl

/-- Dropping from a list whose head fails the predicate is a no-op. -/
theorem dropWhile_eq_self_of_head (l : List Char)
    (h : ∀ c, l.head? = some c → isWs c = false) : l.dropWhile isWs = l := by
  cases l with
  | nil => rfl
  | cons c t => rw [List.dropWhile_cons, if_neg (by simp [h c rfl])]

/-- A token with non-whitespace ends strips to itself. -/
theorem strip_eq_self (l : List Char)
    (h1 : ∀ c, l.head? = some c → isWs c = false)
    (h2 : ∀ c, l.getLast? = some c → isWs c = false) : stripL l = l := by
  rw [stripL, dropWhile_eq_self_of_head l h1,
    dropWhile_eq_self_of_head l.reverse (fun c hc => h2 c (by rwa [List.head?_reverse] at hc))]
  exact List.reverse_reverse l

/-- The head surviving a whitespace drop is not whitespace. -/
theorem head_dropWhile_ws : ∀ (l : List Char) (c : Char),
    (l.dropWhile isWs).head? = some c → isWs c = false := by
  intro l
  induction l with
  | nil => intro c hc; simp at hc
  | cons a t ih =>
    intro c hc
    rw [List.dropWhile_cons] at hc
    split_ifs at hc with ha
    · exact ih c hc
    · simp only [List.head?_cons, Option.some.injEq] at hc
      subst hc
      simpa using ha

/-- A non-empty whitespace drop keeps the original last element. -/
theorem getLast_dropWhile_ws : ∀ (l : List Char), l.dropWhile isWs ≠ [] →
    (l.dropWhile isWs).getLast? = l.getLast? := by
  intro l
  induction l with
  | nil => intro h; simp at h
  | cons a t ih =>
    intro h
    rw [List.dropWhile_cons] at h ⊢
    split_ifs at h ⊢ with ha
    · have htne : t.dropWhile isWs ≠ [] := h
      have htne2 : t ≠ [] := by
        intro h0; subst h0; simp at htne
      rw [ih htne]
      cases t with
      | nil => exact absurd rfl htne2
      | cons b t2 => simp [List.getLast?_cons_cons]
    · rfl

/-- Stripping is idempotent. -/
theorem strip_idem (l : List Char) : stripL (stripL l) = stripL l := by
  by_cases hx : stripL l = []
  · rw [hx]; rfl
  · apply strip_eq_self
    · intro c hc
      rw [stripL, List.head?_reverse] at hc
      have hz : ((l.dropWhile isWs).reverse.dropWhile isWs) ≠ [] := by
        intro h0
        apply hx
        rw [stripL, h0]
        rfl
      rw [getLast_dropWhile_ws _ hz, List.getLast?_reverse] at hc
      exact head_dropWhile_ws l c hc
    · intro c hc
      rw [stripL, List.getLast?_reverse] at hc
      exact head_dropWhile_ws (l.dropWhile isWs).reverse c hc

/-- The last element of a list is a member. -/
theorem mem_of_getLast_some (l : List Char) (c : Char) (h : l.getLast? = some c) :
    c ∈ l := by
  cases hrev : l.reverse with
  | nil =>
    have hl : l = [] := by simpa using congrArg List.reverse hrev
    subst hl
    simp at h
  | cons a t =>
    have hh : l.getLast? = some a := by
      rw [← List.head?_reverse, hrev]
      rfl
    rw [h] at hh
    have ha : a ∈ l.reverse := by
      rw [hrev]
      exact List.mem_cons_self _ _
    rw [List.mem_reverse] at ha
    injection hh with hca
    rw [hca]
    exact ha

/-- A non-empty join of non-empty whitespace-free words ends in a
non-whitespace character. -/
theorem joinWith_getLast_no_ws : ∀ (L : List (List Char)),
    (∀ w ∈ L, w ≠ [] ∧ ∀ c ∈ w, isWs c = false) →
    ∀ c, (joinWith [' '] L).getLast? = some c → isWs c = false := by
  intro L
  induction L with
  | nil => intro _ c hc; simp [joinWith] at hc
  | cons w rest ih =>
    intro hL c hc
    obtain ⟨hwne, hwf⟩ := hL w (List.mem_cons_self _ _)
    cases rest with
    | nil =>
      exact hwf c (mem_of_getLast_some w c hc)
    | cons w' t =>
      have hrest := fun x hx => hL x (List.mem_cons_of_mem _ hx)
      obtain ⟨hw'ne, _⟩ := hrest w' (List.mem_cons_self _ _)
      have hjne : joinWith [' '] (w' :: t) ≠ [] := by
        cases t with
        | nil => exact hw'ne
        | cons w2 t2 =>
          show w' ++ [' '] ++ joinWith [' '] (w2 :: t2) ≠ []
          simp [hw'ne]
      obtain ⟨x, hx⟩ : ∃ x, (joinWith [' '] (w' :: t)).getLast? = some x := by
        cases hj : (joinWith [' '] (w' :: t)).getLast? with
        | none =>
          exfalso
          apply hjne
          cases hcase : joinWith [' '] (w' :: t) with
          | nil => rfl
          | cons y ys => rw [hcase] at hj; simp [List.getLast?_eq_getLast] at hj
        | some x => exact ⟨x, rfl⟩
      rw [show joinWith [' '] (w :: w' :: t) = w ++ ([' '] ++ joinWith [' '] (w' :: t)) by
        simp [joinWith]] at hc
      rw [List.getLast?_append, List.getLast?_append, hx] at hc
      simp [Option.or] at hc
      rw [← hc]
      exact ih hrest x hx

/-- Normalized tokens strip to themselves. -/
theorem strip_norm (l : List Char) : stripL (normalizeTok l) = normalizeTok l := by
  cases hw : words l with
  | nil =>
    rw [normalizeTok, hw]
    rfl
  | cons w rest =>
    have helems : ∀ w ∈ words l, w ≠ [] ∧ ∀ c ∈ w, isWs c = false :=
      words_elems l [] (by simp)
    rw [hw] at helems
    apply strip_eq_self
    · intro c hc
      obtain ⟨hwne, hwf⟩ := helems w (List.mem_cons_self _ _)
      obtain ⟨a, w', rfl⟩ : ∃ a w', w = a :: w' := by
        cases w with
        | nil => exact absurd rfl hwne
        | cons a w' => exact ⟨a, w', rfl⟩
      have : (normalizeTok l).head? = some a := by
        rw [normalizeTok, hw]
        cases rest <;> rfl
      rw [this] at hc
      injection hc with hac
      rw [← hac]
      exact hwf a (List.mem_cons_self _ _)
    · intro c hc
      rw [normalizeTok, hw] at hc
      exact joinWith_getLast_no_ws (w :: rest) helems c hc

/-- A single-word scan decomposes the input as optional leading
whitespace, the word, and trailing whitespace. -/
theorem wordsAux_single : ∀ (l acc w : List Char), (∀ c ∈ acc, isWs c = false) →
    wordsAux l acc = [w] →
    ∃ lead t, (∀ c ∈ lead, isWs c = true) ∧ (∀ c ∈ t, isWs c = true) ∧
      acc.reverse ++ l = lead ++ (w ++ t) ∧ (acc ≠ [] → lead = []) := by
  intro l
  induction l with
  | nil =>
    intro acc w hacc h
    unfold wordsAux at h
    by_cases ha : acc.isEmpty
    · rw [if_pos ha] at h
      simp at h
    · rw [if_neg ha] at h
      have hw2 : acc.reverse = w := by simpa using h
      exact ⟨[], [], by simp, by simp, by simp [hw2], fun _ => rfl⟩
  | cons c rest ih =>
    intro acc w hacc h
    unfold wordsAux at h
    by_cases hc : isWs c
    · rw [if_pos hc] at h
      by_cases ha : acc.isEmpty
      · rw [if_pos ha] at h
        have hacc0 : acc = [] := by simpa [List.isEmpty_iff] using ha
        obtain ⟨lead, t, hl, ht, heq, _⟩ := ih [] w (by simp) h
        simp only [List.reverse_nil, List.nil_append] at heq
        refine ⟨c :: lead, t, ?_, ht, ?_, fun hne => absurd hacc0 hne⟩
        · intro x hx
          rcases List.mem_cons.1 hx with rfl | hx'
          · exact hc
          · exact hl x hx'
        · rw [hacc0]
          simp [heq]
      · rw [if_neg ha] at h
        have h1 : acc.reverse = w ∧ wordsAux rest [] = [] := by
          have := h
          rcases List.cons_eq_cons.1 this with ⟨he, htail⟩
          exact ⟨he, htail⟩
        refine ⟨[], c :: rest, by simp, ?_, by simp [h1.1], fun _ => rfl⟩
        intro x hx
        rcases List.mem_cons.1 hx with rfl | hx'
        · exact hc
        · exact words_nil_all_ws rest h1.2 x hx'
    · rw [if_neg hc] at h
      have hacc' : ∀ x ∈ c :: acc, isWs x = false := by
        intro x hx
        rcases List.mem_cons.1 hx with rfl | hx'
        · simpa using hc
        · exact hacc x hx'
      obtain ⟨lead, t, hl, ht, heq, hconstr⟩ := ih (c :: acc) w hacc' h
      have hlead : lead = [] := hconstr (by simp)
      subst hlead
      refine ⟨[], t, by simp, ht, ?_, fun _ => rfl⟩
      simp only [List.reverse_cons, List.nil_append] at heq ⊢
      rw [← heq]
      simp

/-- A token whose word list is a single word strips to that word. -/
theorem words_single_strip (l w : List Char) (h : words l = [w]) : stripL l = w := by
  obtain ⟨lead, t, hlead, ht, heq, _⟩ := wordsAux_single l [] w (by simp) h
  simp only [List.reverse_nil, List.nil_append] at heq
  obtain ⟨hwne, hwf⟩ := words_elems l [] (by simp) w (by
    rw [show wordsAux l [] = words l from rfl, h]
    exact List.mem_singleton_self w)
  rw [heq, stripL]
  rw [dropWhile_append_all _ lead _ (by
    rw [List.all_eq_true]
    intro x hx
    exact hlead x hx)]
  rw [dropWhile_eq_self_of_head (w ++ t) (by
    intro c hc
    cases w with
    | nil => exact absurd rfl hwne
    | cons a w' =>
      rw [List.cons_append, List.head?_cons] at hc
      injection hc with hca
      rw [← hca]
      exact hwf a (List.mem_cons_self _ _))]
  rw [List.reverse_append]
  rw [dropWhile_append_all _ t.reverse _ (by
    rw [List.all_eq_true]
    intro x hx
    exact ht x (List.mem_reverse.1 hx))]
  rw [dropWhile_eq_self_of_head w.reverse (by
    intro c hc
    rw [List.head?_reverse] at hc
    exact hwf c (mem_of_getLast_some w c hc))]
  exact List.reverse_reverse w

/-- CJK ideographs are not whitespace. -/
theorem isCJK_not_ws (c : Char) (h : isCJK c = true) : isWs c = false := by
  cases hw : isWs c
  · rfl
  · exfalso
    simp only [isWs, Char.isWhitespace, Bool.or_eq_true, decide_eq_true_eq] at hw
    simp only [isCJK, Bool.and_eq_true, decide_eq_true_eq] at h
    rcases hw with ((h1 | h1) | h1) | h1 <;> subst h1 <;> exact absurd h.1 (by decide)

/-- A token passing the zh regex gate is non-empty pure CJK. -/
theorem zhCore_all_cjk (t : List Char) (h : zhCore t = true) :
    (∀ c ∈ t, isCJK c = true) ∧ t ≠ [] := by
  have hre : zhNameRe t = true := by
    by_contra hb
    rw [Bool.not_eq_true] at hb
    unfold zhCore at h
    rw [hb] at h
    simp at h
  simp only [zhNameRe, Bool.and_eq_true, decide_eq_true_eq, List.all_eq_true] at hre
  obtain ⟨⟨h2, _⟩, hall⟩ := hre
  refine ⟨hall, ?_⟩
  intro h0
  rw [h0] at h2
  simp at h2

/-- Bridge for the name-slot invariant: every token accepted by
`_looks_like_name` is classified by `_name_type` as exactly `"zh"` or
`"en"`, never `""`. -/
theorem looksLike_nameType (n : List Char) (h : looksLikeName n = true) :
    nameType n = "zh" ∨ nameType n = "en" := by
  simp only [looksLikeName, isZhName, isEnName] at h
  rw [strip_norm, norm_idem] at h
  simp only [nameType, isZhName, isEnName, strip_idem, norm_strip_arg]
  rw [Bool.or_eq_true] at h
  rcases h with hz | he
  · have hcjk := zhCore_all_cjk _ hz
    have hwf : ∀ c ∈ normalizeTok n, isWs c = false :=
      fun c hc => isCJK_not_ws c (hcjk.1 c hc)
    have hw : words n = [normalizeTok n] := by
      rw [← words_norm n]
      exact words_of_no_ws _ hcjk.2 hwf
    have hs : stripL n = normalizeTok n := words_single_strip n _ hw
    left
    simp [hs, hz]
  · by_cases hzb : zhCore (stripL n) = true
    · left
      simp [hzb]
    · right
      rw [Bool.not_eq_true] at hzb
      simp [hzb, he]

/-- Membership in an append-accumulating fold. -/
theorem mem_foldl_append {β γ : Type} (f : γ → List β) (l : List γ) :
    ∀ (init : List β) (x : β),
      x ∈ l.foldl (fun acc g => acc ++ f g) init ↔ x ∈ init ∨ ∃ g ∈ l, x ∈ f g := by
  induction l with
  | nil => intro init x; simp
  | cons hd tl ih =>
    intro init x
    simp only [List.foldl_cons]
    rw [ih (init ++ f hd) x]
    constructor
    · rintro (hmem | ⟨g, hg, hx⟩)
      · rcases List.mem_append.1 hmem with h | h
        · exact Or.inl h
        · exact Or.inr ⟨hd, List.mem_cons_self _ _, h⟩
      · exact Or.inr ⟨g, List.mem_cons_of_mem _ hg, hx⟩
    · rintro (h | ⟨g, hg, hx⟩)
      · exact Or.inl (List.mem_append.2 (Or.inl h))
      · rcases List.mem_cons.1 hg with rfl | hg'
        · exact Or.inl (List.mem_append.2 (Or.inr hx))
        · exact Or.inr ⟨g, hg', hx⟩

/-- Membership in a conditional that defaults to the empty list. -/
theorem mem_of_mem_ite_nil {α : Type} {c : Prop} [Decidable c] {l : List α} {x : α}
    (h : x ∈ (if c then ([] : List α) else l)) : x ∈ l := by
  split_ifs at h
  · simp at h
  · exact h

/-- Every element of a chunk comes from the chunked list or the open
batch. -/
theorem mem_chunksGo : ∀ (l cur : List String) (rem : Nat) (b : List String)
    (x : String), b ∈ chunksGo l cur rem → x ∈ b → x ∈ l ∨ x ∈ cur := by
  intro l
  induction l with
  | nil =>
    intro cur rem b x hb hx
    unfold chunksGo at hb
    split_ifs at hb with hcur
    · simp at hb
    · simp only [List.mem_singleton] at hb
      subst hb
      exact Or.inr (List.mem_reverse.1 hx)
  | cons a rest ih =>
    intro cur rem b x hb hx
    unfold chunksGo at hb
    cases rem with
    | zero =>
      rcases List.mem_cons.1 hb with rfl | hb'
      · exact Or.inr (List.mem_reverse.1 hx)
      · rcases ih [a] 59 b x hb' hx with h | h
        · exact Or.inl (List.mem_cons_of_mem _ h)
        · simp only [List.mem_singleton] at h
          exact Or.inl (by rw [h]; exact List.mem_cons_self _ _)
    | succ r =>
      rcases ih (a :: cur) r b x hb hx with h | h
      · exact Or.inl (List.mem_cons_of_mem _ h)
      · rcases List.mem_cons.1 h with rfl | h'
        · exact Or.inl (List.mem_cons_self _ _)
        · exact Or.inr h'

/-- Every name accepted by `_filter_names_with_deepseek` passes the
name heuristic — including fail-open batches, whose members come from
the heuristic-filtered deterministic list. -/
theorem filterNames_looksLike (enabled : Bool)
    (oracle : List String → Except Unit (List String)) (cands : List String)
    (name : String) (h : name ∈ filterNamesWithDeepseek enabled oracle cands) :
    looksLikeNameS name = true := by
  unfold filterNamesWithDeepseek at h
  split_ifs at h with h1 h2
  · simp at h
  · rw [mem_sortedDedup] at h
    exact (List.mem_filter.1 h).2
  · rw [mem_sortedDedup, mem_foldl_batches] at h
    rcases h with h0 | ⟨b, hb, hx⟩
    · simp at h0
    cases ho : oracle b with
    | ok names =>
      simp only [batchDecision, ho] at hx
      exact (List.mem_filter.1 hx).2
    | error e =>
      simp only [batchDecision, ho] at hx
      have hmem := mem_chunksGo _ [] 60 b name hb hx
      rcases hmem with hmem | hmem
      · exact (List.mem_filter.1 hmem).2
      · simp at hmem

/-- C8: every professor record created by the classification step has
exactly one of its two name slots non-empty — under any capability
behavior (fail-open batches and the capability-disabled path included),
because every accepted name passes `_looks_like_name` and `_name_type`
then classifies it as exactly one script form. -/
theorem c8_exactly_one_name_slot (enabled : Bool)
    (oracle : String → String → List String → Except Unit (List String))
    (today : String) (existingP : List ProfessorRow) (resume : Bool)
    (groups : List ((String × String) × List (String × String))) :
    (∀ s : String, looksLikeNameS s = true → nameTypeS s = "zh" ∨ nameTypeS s = "en") ∧
    ∀ r ∈ phase1NewProfessorRows enabled oracle today existingP resume groups,
      (r.name_zh ≠ "" ∧ r.name_en = "") ∨ (r.name_zh = "" ∧ r.name_en ≠ "") := by
  have hbridge : ∀ s : String, looksLikeNameS s = true →
      nameTypeS s = "zh" ∨ nameTypeS s = "en" := by
    intro s hs
    exact looksLike_nameType s.data hs
  refine ⟨hbridge, ?_⟩
  intro r hr
  rw [phase1NewProfessorRows, mem_foldl_append] at hr
  rcases hr with h | ⟨g, _, hg⟩
  · simp at h
  · simp only [professorRowsForGroup] at hg
    have hg2 := mem_of_mem_ite_nil hg
    rw [List.mem_map] at hg2
    obtain ⟨name, hname, rfl⟩ := hg2
    have hlooks := filterNames_looksLike _ _ _ _ hname
    have hne : name ≠ "" := by
      intro h0
      rw [h0] at hlooks
      exact absurd hlooks (by decide)
    rcases hbridge name hlooks with hzh | hen
    · left
      constructor
      · simpa [hzh] using hne
      · simp [hzh]
    · right
      constructor
      · simp [hen]
      · simpa [hen] using hne

/-- Concrete instantiation of C8: the record created for the accepted
candidate "张三" carries the name in the zh slot only. -/
theorem c8_exactly_one_name_slot_witness :
    (⟨"物理学部", "物理学院", "张三", "", "", "phase1_discovery", "2025-01-01"⟩ : ProfessorRow)
      ∈ phase1NewProfessorRows false (fun _ _ _ => .error ()) "2025-01-01" [] true
        [(("物理学部", "物理学院"), [("张三", "")])] ∧
    (((⟨"物理学部", "物理学院", "张三", "", "", "phase1_discovery", "2025-01-01"⟩ : ProfessorRow).name_zh ≠ ""
      ∧ (⟨"物理学部", "物理学院", "张三", "", "", "phase1_discovery", "2025-01-01"⟩ : ProfessorRow).name_en = "") ∨
    ((⟨"物理学部", "物理学院", "张三", "", "", "phase1_discovery", "2025-01-01"⟩ : ProfessorRow).name_zh = ""
      ∧ (⟨"物理学部", "物理学院", "张三", "", "", "phase1_discovery", "2025-01-01"⟩ : ProfessorRow).name_en ≠ "")) := by
  refine ⟨by decide, ?_⟩
  exact (c8_exactly_one_name_slot false (fun _ _ _ => .error ()) "2025-01-01" [] true
    [(("物理学部", "物理学院"), [("张三", "")])]).2 _ (by decide)

/-! ## Store refold lemmas (rerun idempotence infrastructure) -/

/-- Assigning a fresh key appends the pair. -/
theorem upsert_of_alook_none [DecidableEq κ] (k : κ) (v : α) (m : List (κ × α))
    (h : alook k m = none) : upsert k v m = m ++ [(k, v)] := by
  induction m with
  | nil => rfl
  | cons p rest ih =>
    obtain ⟨k2, v2⟩ := p
    unfold alook at h
    unfold upsert
    by_cases h1 : k2 = k
    · rw [if_pos h1] at h
      simp at h
    · rw [if_neg h1] at h
      rw [if_neg h1, ih h]
      rfl

/-- A last-wins fold over rows with pairwise-distinct keys, over an
accumulator disjoint from those keys, appends the keyed rows. -/
theorem foldl_upsert_disjoint [DecidableEq κ] (f : α → κ) :
    ∀ (vs : List α) (acc : List (κ × α)), (vs.map f).Nodup →
      (∀ r ∈ vs, ∀ p ∈ acc, p.1 ≠ f r) →
      vs.foldl (fun m r => upsert (f r) r m) acc = acc ++ fromRowsLast f vs := by
  intro vs
  induction vs with
  | nil => intro acc _ _; simp [fromRowsLast]
  | cons r vs' ih =>
    intro acc hnd hdisj
    simp only [List.map_cons, List.nodup_cons] at hnd
    have hfresh : alook (f r) acc = none := by
      cases hlk : alook (f r) acc with
      | none => rfl
      | some v =>
        exfalso
        have : ∃ p ∈ acc, p.1 = f r := by
          clear hdisj
          induction acc with
          | nil => simp [alook] at hlk
          | cons q rest ih2 =>
            obtain ⟨k2, v2⟩ := q
            unfold alook at hlk
            split_ifs at hlk with h1
            · exact ⟨(k2, v2), List.mem_cons_self _ _, h1⟩
            · obtain ⟨p, hp, hpk⟩ := ih2 hlk
              exact ⟨p, List.mem_cons_of_mem _ hp, hpk⟩
        obtain ⟨p, hp, hpk⟩ := this
        exact hdisj r (List.mem_cons_self _ _) p hp hpk
    simp only [List.foldl_cons]
    rw [upsert_of_alook_none _ _ _ hfresh]
    rw [ih (acc ++ [(f r, r)]) hnd.2 ?hdisj2]
    case hdisj2 =>
      intro r' hr' p hp
      rcases List.mem_append.1 hp with hmem | hmem
      · exact hdisj r' (List.mem_cons_of_mem _ hr') p hmem
      · simp only [List.mem_singleton] at hmem
        subst hmem
        intro hcontra
        exact hnd.1 (by rw [show f r = f r' from hcontra]; exact List.mem_map_of_mem f hr')
    have hsingle : fromRowsLast f (r :: vs') = (f r, r) :: fromRowsLast f vs' := by
      unfold fromRowsLast
      simp only [List.foldl_cons]
      rw [show upsert (f r) r [] = [] ++ [(f r, r)] from rfl]
      rw [ih ([] ++ [(f r, r)]) hnd.2 ?hd3]
      case hd3 =>
        intro r' hr' p hp
        simp only [List.nil_append, List.mem_singleton] at hp
        subst hp
        intro hcontra
        exact hnd.1 (by rw [show f r = f r' from hcontra]; exact List.mem_map_of_mem f hr')
      simp [fromRowsLast]
    rw [hsingle]
    simp

/-- With pairwise-distinct keys the last-wins dict lists the rows in
order. -/
theorem fromRowsLast_of_nodup [DecidableEq κ] (f : α → κ) (rows : List α)
    (hnd : (rows.map f).Nodup) :
    fromRowsLast f rows = rows.map (fun r => (f r, r)) := by
  induction rows with
  | nil => rfl
  | cons r vs ih =>
    simp only [List.map_cons, List.nodup_cons] at hnd
    unfold fromRowsLast
    simp only [List.foldl_cons]
    rw [show upsert (f r) r [] = [] ++ [(f r, r)] from rfl]
    rw [foldl_upsert_disjoint f vs ([] ++ [(f r, r)]) hnd.2 ?hd]
    case hd =>
      intro r' hr' p hp
      simp only [List.nil_append, List.mem_singleton] at hp
      subst hp
      intro hcontra
      exact hnd.1 (by rw [show f r = f r' from hcontra]; exact List.mem_map_of_mem f hr')
    rw [ih hnd.2]
    simp

/-- With pairwise-distinct keys the first-wins dict also lists the rows
in order. -/
theorem fromRowsFirst_of_nodup [DecidableEq κ] (f : α → κ) :
    ∀ (rows : List α), ((rows.map f).Nodup) →
      fromRowsFirst f rows = rows.map (fun r => (f r, r)) := by
  have haux : ∀ (vs : List α) (acc : List (κ × α)), ((vs.map f).Nodup) →
      (∀ r ∈ vs, alook (f r) acc = none) →
      vs.foldl (fun m r => if (alook (f r) m).isSome then m else m ++ [(f r, r)]) acc
        = acc ++ vs.map (fun r => (f r, r)) := by
    intro vs
    induction vs with
    | nil => intro acc _ _; simp
    | cons r vs' ih =>
      intro acc hnd hfresh
      simp only [List.map_cons, List.nodup_cons] at hnd
      simp only [List.foldl_cons]
      rw [if_neg (by rw [hfresh r (List.mem_cons_self _ _)]; simp)]
      rw [ih (acc ++ [(f r, r)]) hnd.2 ?hf2]
      case hf2 =>
        intro r' hr'
        rw [alook_append]
        rw [hfresh r' (List.mem_cons_of_mem _ hr')]
        have hne : f r ≠ f r' := by
          intro hcontra
          exact hnd.1 (by rw [show f r = f r' from hcontra]; exact List.mem_map_of_mem f hr')
        simp [optOr, alook, hne]
      simp
  intro rows hnd
  unfold fromRowsFirst
  rw [haux rows [] hnd (fun r _ => rfl)]
  simp

/-- Assignment preserves a keyed dict when the pair itself is keyed. -/
theorem upsert_keyed [DecidableEq κ] (f : α → κ) (k : κ) (v : α) (hkv : k = f v) :
    ∀ (m : List (κ × α)), (∀ p ∈ m, p.1 = f p.2) →
      ∀ q ∈ upsert k v m, q.1 = f q.2 := by
  intro m
  induction m with
  | nil =>
    intro _ q hq
    simp only [upsert, List.mem_singleton] at hq
    subst hq
    exact hkv
  | cons a rest ih =>
    intro hm q hq
    obtain ⟨k2, v2⟩ := a
    unfold upsert at hq
    split_ifs at hq with h1
    · rcases List.mem_cons.1 hq with rfl | hq'
      · exact hkv
      · exact hm q (List.mem_cons_of_mem _ hq')
    · rcases List.mem_cons.1 hq with rfl | hq'
      · exact hm (k2, v2) (List.mem_cons_self _ _)
      · exact ih (fun p hp => hm p (List.mem_cons_of_mem _ hp)) q hq'

/-- Keys stored by the last-wins dict match their values. -/
theorem fromRowsLast_keyed [DecidableEq κ] (f : α → κ) (rows : List α) :
    ∀ p ∈ fromRowsLast f rows, p.1 = f p.2 := by
  have haux : ∀ (vs : List α) (acc : List (κ × α)), (∀ p ∈ acc, p.1 = f p.2) →
      ∀ p ∈ vs.foldl (fun m r => upsert (f r) r m) acc, p.1 = f p.2 := by
    intro vs
    induction vs with
    | nil => intro acc hacc p hp; exact hacc p hp
    | cons r vs' ih =>
      intro acc hacc p hp
      simp only [List.foldl_cons] at hp
      exact ih (upsert (f r) r acc) (upsert_keyed f (f r) r rfl acc hacc) p hp
  intro p hp
  exact haux rows [] (by simp) p hp

/-- The last-wins dict's keys are pairwise distinct. -/
theorem fromRowsLast_keys_nodup [DecidableEq κ] (f : α → κ) (rows : List α) :
    ((fromRowsLast f rows).map Prod.fst).Nodup := by
  induction rows using List.reverseRecOn with
  | nil => simp [fromRowsLast]
  | append_singleton rs r ih =>
    unfold fromRowsLast at ih ⊢
    rw [List.foldl_append, List.foldl_cons, List.foldl_nil]
    generalize hm : rs.foldl (fun m r => upsert (f r) r m) [] = m at ih
    clear hm
    induction m with
    | nil => simp [upsert]
    | cons p rest ih2 =>
      obtain ⟨k2, v2⟩ := p
      simp only [List.map_cons, List.nodup_cons] at ih
      unfold upsert
      split_ifs with h1
      · simp only [List.map_cons, List.nodup_cons]
        exact ⟨by rw [← h1]; exact ih.1, ih.2⟩
      · simp only [List.map_cons, List.nodup_cons]
        constructor
        · intro hcontra
          have hmem : k2 ∈ rest.map Prod.fst ∨ k2 = f r := by
            clear ih2 ih
            induction rest with
            | nil =>
              simp only [upsert, List.map_cons, List.map_nil, List.mem_singleton] at hcontra
              exact Or.inr hcontra
            | cons q rest2 ih3 =>
              obtain ⟨k3, v3⟩ := q
              unfold upsert at hcontra
              split_ifs at hcontra with h2
              · simp only [List.map_cons] at hcontra
                rcases List.mem_cons.1 hcontra with rfl | hmem
                · exact Or.inr rfl
                · exact Or.inl (by simp [hmem])
              · simp only [List.map_cons] at hcontra ⊢
                rcases List.mem_cons.1 hcontra with rfl | hmem
                · exact Or.inl (List.mem_cons_self _ _)
                · rcases ih3 hmem with h | h
                  · exact Or.inl (List.mem_cons_of_mem _ h)
                  · exact Or.inr h
          rcases hmem with h | h
          · exact ih.1 h
          · exact h1 h
        · exact ih2 ih.2

/-- Refolding the values of a keyed distinct-key dict reproduces it
(last-wins). -/
theorem valuesRefoldLast [DecidableEq κ] (f : α → κ) (m : List (κ × α))
    (hnd : (m.map Prod.fst).Nodup) (hk : ∀ p ∈ m, p.1 = f p.2) :
    fromRowsLast f (m.map Prod.snd) = m := by
  have hnd2 : ((m.map Prod.snd).map f).Nodup := by
    have : (m.map Prod.snd).map f = m.map Prod.fst := by
      rw [List.map_map]
      apply List.map_congr_left
      intro p hp
      exact (hk p hp).symm
    rw [this]
    exact hnd
  rw [fromRowsLast_of_nodup f _ hnd2]
  rw [List.map_map]
  conv_rhs => rw [show m = m.map id from (List.map_id m).symm]
  apply List.map_congr_left
  intro p hp
  simp [Function.comp, (hk p hp).symm]

/-- Refolding the values of a keyed distinct-key dict reproduces it
(first-wins). -/
theorem valuesRefoldFirst [DecidableEq κ] (f : α → κ) (m : List (κ × α))
    (hnd : (m.map Prod.fst).Nodup) (hk : ∀ p ∈ m, p.1 = f p.2) :
    fromRowsFirst f (m.map Prod.snd) = m := by
  have hnd2 : ((m.map Prod.snd).map f).Nodup := by
    have : (m.map Prod.snd).map f = m.map Prod.fst := by
      rw [List.map_map]
      apply List.map_congr_left
      intro p hp
      exact (hk p hp).symm
    rw [this]
    exact hnd
  rw [fromRowsFirst_of_nodup f _ hnd2]
  rw [List.map_map]
  conv_rhs => rw [show m = m.map id from (List.map_id m).symm]
  apply List.map_congr_left
  intro p hp
  simp [Function.comp, (hk p hp).symm]

/-- Lookup misses exactly the absent keys. -/
theorem alook_none_iff [DecidableEq κ] (k : κ) (m : List (κ × α)) :
    alook k m = none ↔ k ∉ m.map Prod.fst := by
  induction m with
  | nil => simp [alook]
  | cons p rest ih =>
    obtain ⟨k2, v2⟩ := p
    unfold alook
    split_ifs with h1
    · subst h1
      simp
    · rw [ih]
      simp only [List.map_cons, List.mem_cons]
      constructor
      · intro h hor
        rcases hor with rfl | hmem
        · exact h1 rfl
        · exact h hmem
      · intro h hmem
        exact h (Or.inr hmem)

/-- Non-empty lists have a last element. -/
theorem getLast?_ne_none_of_ne_nil (l : List β) (h : l ≠ []) :
    l.getLast? ≠ none := by
  cases hrev : l.reverse with
  | nil => exact absurd (by simpa using congrArg List.reverse hrev) h
  | cons c cs =>
    rw [← List.head?_reverse, hrev]
    simp

/-- A key is present in the last-wins dict exactly when some row bears
it. -/
theorem mem_keys_fromRowsLast [DecidableEq κ] (f : α → κ) (rows : List α) (k : κ) :
    k ∈ (fromRowsLast f rows).map Prod.fst ↔ k ∈ rows.map f := by
  have h2 := alook_fromRowsLast f rows k
  constructor
  · intro hk
    by_contra hnm
    have hfil : rows.filter (fun r => decide (f r = k)) = [] := by
      rw [List.filter_eq_nil_iff]
      intro r hr
      simp only [decide_eq_true_eq]
      intro hcontra
      exact hnm (by rw [← hcontra]; exact List.mem_map_of_mem f hr)
    rw [hfil] at h2
    have hnone : alook k (fromRowsLast f rows) = none := by simpa using h2
    exact (alook_none_iff k _ ).1 hnone hk
  · intro hmem
    rw [List.mem_map] at hmem
    obtain ⟨r, hr, hfr⟩ := hmem
    by_contra hk
    have hnone : alook k (fromRowsLast f rows) = none := (alook_none_iff k _).2 hk
    rw [hnone] at h2
    have hrfil : r ∈ rows.filter (fun r => decide (f r = k)) :=
      List.mem_filter.2 ⟨hr, by simp [hfr]⟩
    exact getLast?_ne_none_of_ne_nil _ (List.ne_nil_of_mem hrfil) h2.symm

/-- Bool membership test agrees with propositional membership. -/
theorem contains_iff_mem (l : List String) (a : String) : l.contains a = true ↔ a ∈ l := by
  constructor
  · intro h
    exact List.mem_of_elem_eq_true h
  · intro h
    exact List.elem_eq_true_of_mem h

/-- Recomputing the completion status is idempotent. -/
theorem setStatus_idem (r : EnrichedRow) : setStatus (setStatus r) = setStatus r := rfl

/-- Phase2 `run` with resume on and no limit, written out. -/
theorem phase2Run_resume_none (enrich : ProfessorRow → EnrichedRow)
    (names : List ProfessorRow) (existingRows : List EnrichedRow) :
    phase2Run enrich names existingRows true none
      = ((fromRowsLast enrichedKey (existingRows ++
          (names.filter
            (fun r => !((existingRows.map enrichedKey).contains (professorKey r)))).map
              enrich)).map Prod.snd).map setStatus := rfl

/-- Rerun idempotence of phase2: when the enrichment collaborator
preserves each record's natural key, a second resumed run over the
first run's store finds no pending work and rewrites exactly the same
store. -/
theorem phase2_idem (enrich : ProfessorRow → EnrichedRow) (names : List ProfessorRow)
    (existingRows : List EnrichedRow)
    (hkey : ∀ p : ProfessorRow, enrichedKey (enrich p) = professorKey p) :
    phase2Run enrich names (phase2Run enrich names existingRows true none) true none
      = phase2Run enrich names existingRows true none := by
  rw [phase2Run_resume_none enrich names existingRows]
  set new1 := (names.filter
    (fun r => !((existingRows.map enrichedKey).contains (professorKey r)))).map enrich with hnew1
  set m1 := fromRowsLast enrichedKey (existingRows ++ new1) with hm1
  set store1 := (m1.map Prod.snd).map setStatus with hstore1
  have hkeys : store1.map enrichedKey = m1.map Prod.fst := by
    rw [hstore1, List.map_map, List.map_map]
    apply List.map_congr_left
    intro p hp
    show enrichedKey (setStatus p.2) = p.1
    rw [show enrichedKey (setStatus p.2) = enrichedKey p.2 from rfl]
    exact (fromRowsLast_keyed enrichedKey _ p hp).symm
  have hpend2 : names.filter
      (fun r => !((store1.map enrichedKey).contains (professorKey r))) = [] := by
    rw [List.filter_eq_nil_iff]
    intro r hr
    have hmem : (store1.map enrichedKey).contains (professorKey r) = true := by
      rw [hkeys, contains_iff_mem, mem_keys_fromRowsLast]
      by_cases hc : (existingRows.map enrichedKey).contains (professorKey r) = true
      · rw [contains_iff_mem] at hc
        rw [List.map_append]
        exact List.mem_append.2 (Or.inl hc)
      · have hcf : (existingRows.map enrichedKey).contains (professorKey r) = false :=
          Bool.not_eq_true _ ▸ hc
        have hrp : r ∈ names.filter
            (fun x => !((existingRows.map enrichedKey).contains (professorKey x))) :=
          List.mem_filter.2 ⟨hr, by rw [hcf]; rfl⟩
        have henr : enrich r ∈ new1 := by
          rw [hnew1]
          exact List.mem_map_of_mem enrich hrp
        rw [List.map_append]
        refine List.mem_append.2 (Or.inr ?_)
        rw [← hkey r]
        exact List.mem_map_of_mem enrichedKey henr
    intro hcon
    rw [hmem, Bool.not_true] at hcon
    exact Bool.false_ne_true hcon
  rw [phase2Run_resume_none enrich names store1, hpend2]
  simp only [List.map_nil, List.append_nil]
  have hm1' : fromRowsLast enrichedKey store1
      = m1.map (fun p => (p.1, setStatus p.2)) := by
    have hstore1' : store1 = (m1.map (fun p => (p.1, setStatus p.2))).map Prod.snd := by
      rw [hstore1, List.map_map, List.map_map]
      rfl
    rw [hstore1']
    apply valuesRefoldLast
    · have heq : (m1.map (fun p => (p.1, setStatus p.2))).map Prod.fst
          = m1.map Prod.fst := by
        rw [List.map_map]
        rfl
      rw [heq]
      exact fromRowsLast_keys_nodup _ _
    · intro q hq
      rw [List.mem_map] at hq
      obtain ⟨p, hp, rfl⟩ := hq
      show p.1 = enrichedKey (setStatus p.2)
      rw [show enrichedKey (setStatus p.2) = enrichedKey p.2 from rfl]
      exact fromRowsLast_keyed enrichedKey _ p hp
  rw [hm1', hstore1]
  simp only [List.map_map]
  apply List.map_congr_left
  intro p hp
  show setStatus (setStatus p.2) = setStatus p.2
  exact setStatus_idem p.2

/-- Phase3 `run` with resume on and no limit, written out. -/
theorem phase3Run_eq (enabled : Bool) (oracle : String → Except Unit ClassifyPayload)
    (today : String) (rows existingN : List EnrichedRow) (existingR : List ReviewRow) :
    phase3Run enabled oracle today rows existingN existingR true none
      = (if ((rows.filter
            (fun r => !((existingN.map enrichedKey).contains (enrichedKey r)))).foldl
              (phase3Step enabled oracle today) ([], [])).1.isEmpty then
          .ok ((fromRowsLast enrichedKey (existingN
                ++ ((rows.filter
                  (fun r => !((existingN.map enrichedKey).contains (enrichedKey r)))).foldl
                    (phase3Step enabled oracle today) ([], [])).1)).map Prod.snd,
               (fromRowsLast reviewKey (existingR
                ++ ((rows.filter
                  (fun r => !((existingN.map enrichedKey).contains (enrichedKey r)))).foldl
                    (phase3Step enabled oracle today) ([], [])).2)).map Prod.snd)
        else .error "TypeError: 'str' object is not callable") := rfl

/-- Each processed row contributes exactly one normalized row. -/
theorem phase3Step_foldl_length (enabled : Bool)
    (oracle : String → Except Unit ClassifyPayload) (today : String) :
    ∀ (pending : List EnrichedRow) (accN : List EnrichedRow) (accR : List ReviewRow),
      ((pending.foldl (phase3Step enabled oracle today) (accN, accR)).1).length
        = accN.length + pending.length := by
  intro pending
  induction pending with
  | nil => intro accN accR; simp
  | cons r rest ih =>
    intro accN accR
    simp only [List.foldl_cons, List.length_cons]
    show (rest.foldl (phase3Step enabled oracle today)
      ((phase3Step enabled oracle today (accN, accR) r).1,
       (phase3Step enabled oracle today (accN, accR) r).2)).1.length
        = accN.length + (rest.length + 1)
    rw [ih]
    have h3 : (phase3Step enabled oracle today (accN, accR) r).1.length
        = accN.length + 1 := by
      simp [phase3Step]
    omega

/-- Rerun idempotence of phase3: a successful run (which means it found
no pending work — the `row_key` shadowing crashes any run that has
some) reruns successfully on its own output, rewriting the same
normalized and review stores. -/
theorem phase3_idem (enabled : Bool) (oracle : String → Except Unit ClassifyPayload)
    (today today2 : String) (rows existingN : List EnrichedRow) (existingR : List ReviewRow)
    (n : List EnrichedRow) (rv : List ReviewRow)
    (h1 : phase3Run enabled oracle today rows existingN existingR true none = .ok (n, rv)) :
    phase3Run enabled oracle today2 rows n rv true none = .ok (n, rv) := by
  rw [phase3Run_eq] at h1
  by_cases hemp : ((rows.filter
      (fun r => !((existingN.map enrichedKey).contains (enrichedKey r)))).foldl
        (phase3Step enabled oracle today) ([], [])).1.isEmpty
  case neg =>
    rw [if_neg hemp] at h1
    simp at h1
  case pos =>
    rw [if_pos hemp] at h1
    have hlen := phase3Step_foldl_length enabled oracle today
      (rows.filter (fun r => !((existingN.map enrichedKey).contains (enrichedKey r)))) [] []
    rw [List.isEmpty_iff] at hemp
    rw [hemp] at hlen
    simp only [List.length_nil, Nat.zero_add] at hlen
    have hpend1 : rows.filter
        (fun r => !((existingN.map enrichedKey).contains (enrichedKey r))) = [] :=
      List.length_eq_zero.1 hlen.symm
    rw [hpend1] at h1
    have h1' : Except.ok ((fromRowsLast enrichedKey (existingN ++ [])).map Prod.snd,
        (fromRowsLast reviewKey (existingR ++ [])).map Prod.snd)
      = (Except.ok (n, rv) : Except String (List EnrichedRow × List ReviewRow)) := h1
    rw [List.append_nil, List.append_nil, Except.ok.injEq, Prod.mk.injEq] at h1'
    obtain ⟨hn, hrv⟩ := h1'
    have hpend2 : rows.filter
        (fun r => !((n.map enrichedKey).contains (enrichedKey r))) = [] := by
      rw [List.filter_eq_nil_iff]
      intro r hr
      have h1mem : (existingN.map enrichedKey).contains (enrichedKey r) = true := by
        by_contra hb
        have hbf : (existingN.map enrichedKey).contains (enrichedKey r) = false :=
          Bool.not_eq_true _ ▸ hb
        have : r ∈ rows.filter
            (fun x => !((existingN.map enrichedKey).contains (enrichedKey x))) :=
          List.mem_filter.2 ⟨hr, by rw [hbf]; rfl⟩
        rw [hpend1] at this
        simp at this
      have hnkeys : n.map enrichedKey
          = (fromRowsLast enrichedKey existingN).map Prod.fst := by
        rw [← hn, List.map_map]
        apply List.map_congr_left
        intro p hp
        exact (fromRowsLast_keyed enrichedKey _ p hp).symm
      have hmem2 : (n.map enrichedKey).contains (enrichedKey r) = true := by
        rw [hnkeys, contains_iff_mem, mem_keys_fromRowsLast]
        rw [contains_iff_mem] at h1mem
        exact h1mem
      intro hcon
      rw [hmem2, Bool.not_true] at hcon
      exact Bool.false_ne_true hcon
    have hn' : fromRowsLast enrichedKey n = fromRowsLast enrichedKey existingN := by
      conv_lhs => rw [← hn]
      exact valuesRefoldLast enrichedKey _ (fromRowsLast_keys_nodup _ _)
        (fromRowsLast_keyed _ _)
    have hrv' : fromRowsLast reviewKey rv = fromRowsLast reviewKey existingR := by
      conv_lhs => rw [← hrv]
      exact valuesRefoldLast reviewKey _ (fromRowsLast_keys_nodup _ _)
        (fromRowsLast_keyed _ _)
    rw [phase3Run_eq, hpend2]
    show Except.ok ((fromRowsLast enrichedKey (n ++ [])).map Prod.snd,
        (fromRowsLast reviewKey (rv ++ [])).map Prod.snd)
      = (Except.ok (n, rv) : Except String (List EnrichedRow × List ReviewRow))
    rw [List.append_nil, List.append_nil, hn', hrv', hn, hrv]

/-- C6: the candidate name heuristic accepts "张三" and "Li Ming",
rejects the stop word "教师队伍", the stop-word-bearing non-capitalized
"the group", and the digit-bearing "A1 B2". -/
theorem c6_name_heuristic_vectors :
    looksLikeNameS "张三" = true ∧
    looksLikeNameS "教师队伍" = false ∧
    looksLikeNameS "Li Ming" = true ∧
    looksLikeNameS "the group" = false ∧
    looksLikeNameS "A1 B2" = false := by
  refine ⟨?_, ?_, ?_, ?_, ?_⟩ <;> decide

/-- Generic Bool membership test agrees with propositional membership. -/
theorem bcontains_iff_mem [BEq κ] [LawfulBEq κ] (l : List κ) (a : κ) :
    l.contains a = true ↔ a ∈ l := by
  constructor
  · intro h
    exact List.mem_of_elem_eq_true h
  · intro h
    exact List.elem_eq_true_of_mem h

/-- Python `strip` is idempotent, at the string level. -/
theorem pyStripS_idem (s : String) : pyStripS (pyStripS s) = pyStripS s := by
  show (⟨stripL (stripL s.data)⟩ : String) = ⟨stripL s.data⟩
  rw [strip_idem]

/-- A successful lookup returns a stored pair. -/
theorem alook_mem [DecidableEq κ] (k : κ) (m : List (κ × α)) (v : α)
    (h : alook k m = some v) : (k, v) ∈ m := by
  induction m with
  | nil => exact absurd h (by simp [alook])
  | cons p rest ih =>
    obtain ⟨k2, v2⟩ := p
    unfold alook at h
    by_cases hk : k2 = k
    · rw [if_pos hk] at h
      injection h with h
      subst hk
      subst h
      exact List.mem_cons_self _ _
    · rw [if_neg hk] at h
      exact List.mem_cons_of_mem _ (ih h)

/-- A pair of an updated dict is an old pair or the inserted one. -/
theorem mem_upsert [DecidableEq κ] (k : κ) (v : α) (q : κ × α) :
    ∀ m : List (κ × α), q ∈ upsert k v m → q ∈ m ∨ q = (k, v) := by
  intro m
  induction m with
  | nil =>
    intro h
    rw [show upsert k v [] = [(k, v)] from rfl, List.mem_singleton] at h
    exact Or.inr h
  | cons p rest ih =>
    obtain ⟨k2, v2⟩ := p
    intro h
    unfold upsert at h
    by_cases hk : k2 = k
    · rw [if_pos hk] at h
      rcases List.mem_cons.1 h with h1 | h1
      · exact Or.inr h1
      · exact Or.inl (List.mem_cons_of_mem _ h1)
    · rw [if_neg hk] at h
      rcases List.mem_cons.1 h with h1 | h1
      · exact Or.inl (h1 ▸ List.mem_cons_self _ _)
      · rcases ih h1 with h2 | h2
        · exact Or.inl (List.mem_cons_of_mem _ h2)
        · exact Or.inr h2

/-- Values of a latest-wins dict over collision-free rows: the rows
themselves, in order. -/
theorem values_fromRowsLast_of_nodup [DecidableEq κ] (f : α → κ) (rows : List α)
    (hnd : (rows.map f).Nodup) : (fromRowsLast f rows).map Prod.snd = rows := by
  rw [fromRowsLast_of_nodup f rows hnd, List.map_map]
  have h : ∀ r ∈ rows, (Prod.snd ∘ fun r => (f r, r)) r = id r := fun r _ => rfl
  rw [List.map_congr_left h, List.map_id]

/-- Values of a first-wins dict over collision-free rows: the rows
themselves, in order. -/
theorem values_fromRowsFirst_of_nodup [DecidableEq κ] (f : α → κ) (rows : List α)
    (hnd : (rows.map f).Nodup) : (fromRowsFirst f rows).map Prod.snd = rows := by
  rw [fromRowsFirst_of_nodup f rows hnd, List.map_map]
  have h : ∀ r ∈ rows, (Prod.snd ∘ fun r => (f r, r)) r = id r := fun r _ => rfl
  rw [List.map_congr_left h, List.map_id]

/-- Every element fed to the chunker lands in some emitted batch. -/
theorem chunksGo_cover : ∀ (l cur : List String) (rem : Nat) (x : String),
    x ∈ l ∨ x ∈ cur → ∃ b ∈ chunksGo l cur rem, x ∈ b := by
  intro l
  induction l with
  | nil =>
    intro cur rem x hx
    rcases hx with hx | hx
    · exact absurd hx (List.not_mem_nil x)
    · refine ⟨cur.reverse, ?_, List.mem_reverse.2 hx⟩
      unfold chunksGo
      rw [if_neg (by simp [List.isEmpty_iff]; exact List.ne_nil_of_mem hx)]
      exact List.mem_singleton.2 rfl
  | cons y rest ih =>
    intro cur rem x hx
    match rem with
    | 0 =>
      rcases hx with hx | hx
      · rcases List.mem_cons.1 hx with h1 | h1
        · obtain ⟨b, hb, hxb⟩ := ih [y] 59 x (Or.inr (by rw [h1]; exact List.mem_singleton.2 rfl))
          exact ⟨b, List.mem_cons_of_mem _ hb, hxb⟩
        · obtain ⟨b, hb, hxb⟩ := ih [y] 59 x (Or.inl h1)
          exact ⟨b, List.mem_cons_of_mem _ hb, hxb⟩
      · exact ⟨cur.reverse, List.mem_cons_self _ _, List.mem_reverse.2 hx⟩
    | r + 1 =>
      rcases hx with hx | hx
      · rcases List.mem_cons.1 hx with h1 | h1
        · exact ih (y :: cur) r x (Or.inr (h1 ▸ List.mem_cons_self _ _))
        · exact ih (y :: cur) r x (Or.inl h1)
      · exact ih (y :: cur) r x (Or.inr (List.mem_cons_of_mem _ hx))

/-- `_filter_names_with_deepseek` with a disabled client, written out. -/
theorem filterNames_false_eq (oracle : List String → Except Unit (List String))
    (cands : List String) :
    filterNamesWithDeepseek false oracle cands
      = if cands.isEmpty then [] else sortedDedup (cands.filter looksLikeNameS) := rfl

/-- `_filter_names_with_deepseek` with an enabled client, written out. -/
theorem filterNames_true_eq (oracle : List String → Except Unit (List String))
    (cands : List String) :
    filterNamesWithDeepseek true oracle cands
      = if cands.isEmpty then []
        else sortedDedup ((chunks60 (cands.filter looksLikeNameS)).foldl
          (fun acc batch => acc ++ batchDecision oracle batch) []) := rfl

/-- For a capability whose per-batch answer is a pointwise filter of
the batch, the accepted names are exactly the heuristic passers the
filter keeps. -/
theorem filterNames_pointwise_mem (enabled : Bool) (g : String → Bool)
    (cands : List String) (x : String) :
    x ∈ filterNamesWithDeepseek enabled (fun b => Except.ok (b.filter g)) cands
      ↔ x ∈ cands ∧ looksLikeNameS x = true ∧ (enabled = true → g x = true) := by
  cases enabled
  case false =>
    rw [filterNames_false_eq]
    by_cases h0 : cands.isEmpty
    · rw [if_pos h0]
      rw [List.isEmpty_iff] at h0
      subst h0
      simp
    · rw [if_neg h0, mem_sortedDedup, List.mem_filter]
      constructor
      · rintro ⟨h1, h2⟩
        exact ⟨h1, h2, fun h => Bool.noConfusion h⟩
      · rintro ⟨h1, h2, h3⟩
        exact ⟨h1, h2⟩
  case true =>
    rw [filterNames_true_eq]
    by_cases h0 : cands.isEmpty
    · rw [if_pos h0]
      rw [List.isEmpty_iff] at h0
      subst h0
      simp
    · rw [if_neg h0, mem_sortedDedup, mem_foldl_batches]
      constructor
      · rintro (h | ⟨b, hb, hxb⟩)
        · exact absurd h (List.not_mem_nil x)
        · have hxb' : x ∈ (b.filter g).filter looksLikeNameS := hxb
          rw [List.mem_filter] at hxb'
          obtain ⟨hxfg, hlx⟩ := hxb'
          rw [List.mem_filter] at hxfg
          obtain ⟨hxb2, hgx⟩ := hxfg
          have hxdet : x ∈ cands.filter looksLikeNameS := by
            rcases mem_chunksGo _ _ _ b x hb hxb2 with h1 | h1
            · exact h1
            · exact absurd h1 (List.not_mem_nil x)
          rw [List.mem_filter] at hxdet
          exact ⟨hxdet.1, hxdet.2, fun _ => hgx⟩
      · rintro ⟨hxc, hlx, hgx⟩
        refine Or.inr ?_
        obtain ⟨b, hb, hxb⟩ := chunksGo_cover (cands.filter looksLikeNameS) [] 60 x
          (Or.inl (List.mem_filter.2 ⟨hxc, hlx⟩))
        refine ⟨b, hb, ?_⟩
        show x ∈ (b.filter g).filter looksLikeNameS
        exact List.mem_filter.2 ⟨List.mem_filter.2 ⟨hxb, hgx rfl⟩, hlx⟩

/-- `existing_by_school` for one school as a fold of per-row name
contributions. -/
theorem existingNamesFor_eq (profRows : List ProfessorRow) (dept school : String) :
    existingNamesFor profRows dept school
      = profRows.foldl (fun acc r => acc ++ entryNames dept school r) [] := by
  have haux : ∀ (rows : List ProfessorRow) (init : List String),
      rows.foldl (fun acc r =>
        if r.department_name_zh = dept ∧ r.school_name_zh = school then
          let acc2 := if pyStripS r.name_zh ≠ "" then acc ++ [pyStripS r.name_zh] else acc
          if pyStripS r.name_en ≠ "" then acc2 ++ [pyStripS r.name_en] else acc2
        else acc) init
      = rows.foldl (fun acc r => acc ++ entryNames dept school r) init := by
    intro rows
    induction rows with
    | nil => intro init; rfl
    | cons r rest ih =>
      intro init
      simp only [List.foldl_cons]
      rw [ih]
      congr 1
      by_cases hm : r.department_name_zh = dept ∧ r.school_name_zh = school
      · by_cases hz : pyStripS r.name_zh ≠ ""
        · by_cases he : pyStripS r.name_en ≠ ""
          · simp [entryNames, hm, hz, he, List.append_assoc]
          · simp [entryNames, hm, hz, he]
        · by_cases he : pyStripS r.name_en ≠ ""
          · simp [entryNames, hm, hz, he]
          · simp [entryNames, hm, hz, he]
      · simp [entryNames, hm]
  exact haux profRows []

/-- Membership in `existing_by_school` for a school: some row of the
store contributes the name. -/
theorem mem_existingNamesFor (profRows : List ProfessorRow) (dept school : String)
    (x : String) :
    x ∈ existingNamesFor profRows dept school
      ↔ ∃ r ∈ profRows, x ∈ entryNames dept school r := by
  rw [existingNamesFor_eq, mem_foldl_append]
  simp

/-- Every name stored by the school grouping is stripped and
non-empty. -/
theorem groupCandidates_names (rows : List CandidateRow) :
    ∀ grp ∈ groupCandidates rows, ∀ pr ∈ grp.2, pyStripS pr.1 = pr.1 ∧ pr.1 ≠ "" := by
  have haux : ∀ (rs : List CandidateRow)
      (acc : List ((String × String) × List (String × String))),
      (∀ grp ∈ acc, ∀ pr ∈ grp.2, pyStripS pr.1 = pr.1 ∧ pr.1 ≠ "") →
      ∀ grp ∈ rs.foldl (fun acc r =>
        let key := (r.department_name_zh, r.school_name_zh)
        let name := pyStripS r.name_candidate
        let url := pyStripS r.profile_url
        if name = "" then acc
        else
          match alook key acc with
          | none => acc ++ [(key, [(name, url)])]
          | some m =>
            if (alook name m).isSome then acc
            else upsert key (m ++ [(name, url)]) acc) acc,
        ∀ pr ∈ grp.2, pyStripS pr.1 = pr.1 ∧ pr.1 ≠ "" := by
    intro rs
    induction rs with
    | nil => intro acc hacc; exact hacc
    | cons r rest ih =>
      intro acc hacc
      simp only [List.foldl_cons]
      apply ih
      intro grp hgrp pr hpr
      have hgrp' : grp ∈ (if pyStripS r.name_candidate = "" then acc
          else
            match alook (r.department_name_zh, r.school_name_zh) acc with
            | none => acc ++ [((r.department_name_zh, r.school_name_zh),
                [(pyStripS r.name_candidate, pyStripS r.profile_url)])]
            | some m =>
              if (alook (pyStripS r.name_candidate) m).isSome then acc
              else upsert (r.department_name_zh, r.school_name_zh)
                (m ++ [(pyStripS r.name_candidate, pyStripS r.profile_url)]) acc) := hgrp
      by_cases hname : pyStripS r.name_candidate = ""
      · rw [if_pos hname] at hgrp'
        exact hacc grp hgrp' pr hpr
      · rw [if_neg hname] at hgrp'
        cases halook : alook (r.department_name_zh, r.school_name_zh) acc with
        | none =>
          rw [halook] at hgrp'
          have hgrp2 : grp ∈ acc ++ [((r.department_name_zh, r.school_name_zh),
              [(pyStripS r.name_candidate, pyStripS r.profile_url)])] := hgrp'
          rcases List.mem_append.1 hgrp2 with h1 | h1
          · exact hacc grp h1 pr hpr
          · rw [List.mem_singleton] at h1
            subst h1
            have hpr' : pr ∈ [(pyStripS r.name_candidate, pyStripS r.profile_url)] := hpr
            rw [List.mem_singleton] at hpr'
            subst hpr'
            exact ⟨pyStripS_idem _, hname⟩
        | some m =>
          rw [halook] at hgrp'
          have hgrp2 : grp ∈ (if (alook (pyStripS r.name_candidate) m).isSome then acc
              else upsert (r.department_name_zh, r.school_name_zh)
                (m ++ [(pyStripS r.name_candidate, pyStripS r.profile_url)]) acc) := hgrp'
          by_cases hsome : (alook (pyStripS r.name_candidate) m).isSome
          · rw [if_pos hsome] at hgrp2
            exact hacc grp hgrp2 pr hpr
          · rw [if_neg hsome] at hgrp2
            rcases mem_upsert _ _ grp acc hgrp2 with h1 | h1
            · exact hacc grp h1 pr hpr
            · subst h1
              have hpr' : pr ∈ m ++ [(pyStripS r.name_candidate, pyStripS r.profile_url)] := hpr
              rcases List.mem_append.1 hpr' with h2 | h2
              · exact hacc _ (alook_mem _ _ _ halook) pr h2
              · rw [List.mem_singleton] at h2
                subst h2
                exact ⟨pyStripS_idem _, hname⟩
  intro grp hgrp
  exact haux rows [] (fun grp h => absurd h (List.not_mem_nil grp)) grp hgrp

/-- Per-group record creation in resume mode, written out. -/
theorem professorRowsForGroup_resume (enabled : Bool)
    (oracle : String → String → List String → Except Unit (List String))
    (today : String) (existingP : List ProfessorRow)
    (grp : (String × String) × List (String × String)) :
    professorRowsForGroup enabled oracle today existingP true grp
      = (if ((sortStr (grp.2.map Prod.fst)).filter
            (fun n => !((existingNamesFor existingP grp.1.1 grp.1.2).contains n))).isEmpty
         then []
         else (filterNamesWithDeepseek enabled (oracle grp.1.2 grp.1.1)
             ((sortStr (grp.2.map Prod.fst)).filter
               (fun n => !((existingNamesFor existingP grp.1.1 grp.1.2).contains n)))).map
           (fun name =>
             ⟨grp.1.1, grp.1.2, if nameTypeS name = "zh" then name else "",
               if nameTypeS name = "en" then name else "", "", "phase1_discovery", today⟩)) := rfl

/-- Phase1 `run` in resume mode, written out. -/
theorem phase1Run_resume (crawl : Nat → SeedRow → List ListingRow)
    (pairsOf : String → String → List (String × String))
    (htmlOf : String → Option String) (enabled : Bool)
    (oracle : String → String → List String → Except Unit (List String))
    (today : String) (seedStart : Nat) (seeds : List SeedRow)
    (sL : List ListingRow) (sC : List CandidateRow) (sP : List ProfessorRow) :
    phase1Run crawl pairsOf htmlOf enabled oracle today seedStart true seeds sL sC sP
      = ((fromRowsLast listingKey
            (sL ++ phase1ListingNew crawl seedStart true sL seeds)).map Prod.snd,
         (fromRowsLast candidateKey (sC ++ phase1CandidatesNew pairsOf htmlOf true sC
           ((fromRowsLast listingKey
             (sL ++ phase1ListingNew crawl seedStart true sL seeds)).map Prod.snd))).map Prod.snd,
         (fromRowsFirst professorKey (sP ++ phase1NewProfessorRows enabled oracle today sP true
           (groupCandidates
             ((fromRowsLast candidateKey (sC ++ phase1CandidatesNew pairsOf htmlOf true sC
               ((fromRowsLast listingKey
                 (sL ++ phase1ListingNew crawl seedStart true sL seeds)).map
                   Prod.snd))).map Prod.snd)))).map Prod.snd) := rfl

/-- Rerun idempotence of phase1 discovery: with a per-name-deterministic
classification capability, crawl rows that carry their seed index, and
collision-free natural keys, a second resumed run over the stores a
first run wrote skips every seed, every saved page and every known
name, and rewrites the same three stores. -/
theorem phase1_idem (crawl : Nat → SeedRow → List ListingRow)
    (pairsOf : String → String → List (String × String))
    (htmlOf : String → Option String) (enabled : Bool)
    (g : String → String → String → Bool) (today today2 : String)
    (seedStart : Nat) (seeds : List SeedRow)
    (storeL : List ListingRow) (storeC : List CandidateRow) (storeP : List ProfessorRow)
    (l1 : List ListingRow) (cd1 : List CandidateRow) (p1 : List ProfessorRow)
    (hidx : ∀ (i : Nat) (s : SeedRow), ∀ r ∈ crawl i s, r.seed_row_index = i)
    (hr1 : phase1Run crawl pairsOf htmlOf enabled
        (fun s d b => Except.ok (b.filter (g s d))) today seedStart true seeds
        storeL storeC storeP = (l1, cd1, p1))
    (hL : ((storeL ++ phase1ListingNew crawl seedStart true storeL seeds).map
        listingKey).Nodup)
    (hC : ((storeC ++ phase1CandidatesNew pairsOf htmlOf true storeC l1).map
        candidateKey).Nodup)
    (hP : ((storeP ++ phase1NewProfessorRows enabled
        (fun s d b => Except.ok (b.filter (g s d))) today storeP true
        (groupCandidates cd1)).map professorKey).Nodup) :
    phase1Run crawl pairsOf htmlOf enabled (fun s d b => Except.ok (b.filter (g s d)))
        today2 seedStart true seeds l1 cd1 p1 = (l1, cd1, p1) := by
  rw [phase1Run_resume, Prod.mk.injEq, Prod.mk.injEq] at hr1
  obtain ⟨h1, h2, h3⟩ := hr1
  rw [h1] at h2
  rw [h1, h2] at h3
  have hval1 : l1 = storeL ++ phase1ListingNew crawl seedStart true storeL seeds :=
    h1.symm.trans (values_fromRowsLast_of_nodup _ _ hL)
  have hval2 : cd1 = storeC ++ phase1CandidatesNew pairsOf htmlOf true storeC l1 :=
    h2.symm.trans (values_fromRowsLast_of_nodup _ _ hC)
  have hval3 : p1 = storeP ++ phase1NewProfessorRows enabled
      (fun s d b => Except.ok (b.filter (g s d))) today storeP true (groupCandidates cd1) :=
    h3.symm.trans (values_fromRowsFirst_of_nodup _ _ hP)
  have hnewL2 : phase1ListingNew crawl seedStart true l1 seeds = [] := by
    rw [List.eq_nil_iff_forall_not_mem]
    intro r hr
    unfold phase1ListingNew at hr
    rw [mem_foldl_append] at hr
    rcases hr with hr | ⟨p, hp, hrc⟩
    · exact List.not_mem_nil r hr
    · have hrc' : r ∈ (if (processedSeedIndices l1).contains (seedStart + p.1) = true then []
          else if pyStripS p.2.faculty_list_url = "" then []
          else crawl (seedStart + p.1) p.2) := hrc
      by_cases hc1 : (processedSeedIndices l1).contains (seedStart + p.1) = true
      · rw [if_pos hc1] at hrc'
        exact List.not_mem_nil r hrc'
      · rw [if_neg hc1] at hrc'
        by_cases hc2 : pyStripS p.2.faculty_list_url = ""
        · rw [if_pos hc2] at hrc'
          exact List.not_mem_nil r hrc'
        · rw [if_neg hc2] at hrc'
          have hrun1 : r ∈ phase1ListingNew crawl seedStart true storeL seeds := by
            unfold phase1ListingNew
            rw [mem_foldl_append]
            refine Or.inr ⟨p, hp, ?_⟩
            show r ∈ (if (processedSeedIndices storeL).contains (seedStart + p.1) = true
              then []
              else if pyStripS p.2.faculty_list_url = "" then []
              else crawl (seedStart + p.1) p.2)
            have hcs : ¬ (processedSeedIndices storeL).contains (seedStart + p.1) = true := by
              intro hmem
              apply hc1
              rw [bcontains_iff_mem] at hmem ⊢
              rw [hval1]
              unfold processedSeedIndices at hmem ⊢
              rw [List.map_append]
              exact List.mem_append.2 (Or.inl hmem)
            rw [if_neg hcs, if_neg hc2]
            exact hrc'
          have hrl1 : r ∈ l1 := by
            rw [hval1]
            exact List.mem_append.2 (Or.inr hrun1)
          apply hc1
          rw [bcontains_iff_mem]
          unfold processedSeedIndices
          rw [List.mem_map]
          exact ⟨r, hrl1, hidx _ _ r hrc'⟩
  have hndl1 : (l1.map listingKey).Nodup := by
    rw [hval1]
    exact hL
  have hnewC2 : phase1CandidatesNew pairsOf htmlOf true cd1 l1 = [] := by
    rw [List.eq_nil_iff_forall_not_mem]
    intro c hc
    unfold phase1CandidatesNew at hc
    rw [mem_foldl_append] at hc
    rcases hc with hc | ⟨l, hl, hcon⟩
    · exact List.not_mem_nil c hc
    · have hcon' : c ∈ (if pyStripS l.html_path = "" then []
          else if (candidateHtmlPaths cd1).contains (pyStripS l.html_path) = true then []
          else candidateRowsFor pairsOf htmlOf l) := hcon
      by_cases hb1 : pyStripS l.html_path = ""
      · rw [if_pos hb1] at hcon'
        exact List.not_mem_nil c hcon'
      · rw [if_neg hb1] at hcon'
        by_cases hb2 : (candidateHtmlPaths cd1).contains (pyStripS l.html_path) = true
        · rw [if_pos hb2] at hcon'
          exact List.not_mem_nil c hcon'
        · rw [if_neg hb2] at hcon'
          have hrun1 : c ∈ phase1CandidatesNew pairsOf htmlOf true storeC l1 := by
            unfold phase1CandidatesNew
            rw [mem_foldl_append]
            refine Or.inr ⟨l, hl, ?_⟩
            show c ∈ (if pyStripS l.html_path = "" then []
              else if (candidateHtmlPaths storeC).contains (pyStripS l.html_path) = true
                then []
              else candidateRowsFor pairsOf htmlOf l)
            have hcs : ¬ (candidateHtmlPaths storeC).contains (pyStripS l.html_path)
                = true := by
              intro hmem
              apply hb2
              rw [bcontains_iff_mem] at hmem ⊢
              rw [hval2]
              unfold candidateHtmlPaths at hmem ⊢
              rw [List.filter_append, List.map_append]
              exact List.mem_append.2 (Or.inl hmem)
            rw [if_neg hb1, if_neg hcs]
            exact hcon'
          have hcc : c ∈ cd1 := by
            rw [hval2]
            exact List.mem_append.2 (Or.inr hrun1)
          apply hb2
          rw [bcontains_iff_mem]
          unfold candidateHtmlPaths
          rw [List.mem_map]
          unfold candidateRowsFor at hcon'
          cases hhtml : htmlOf (pyStripS l.html_path) with
          | none =>
            rw [hhtml] at hcon'
            exact absurd hcon' (List.not_mem_nil c)
          | some content =>
            rw [hhtml] at hcon'
            have hcon2 : c ∈ (pairsOf content (pyStripS l.listing_page_url)).map (fun nu =>
                (⟨l.department_name_zh, l.school_name_zh, nu.1, nu.2, pyStripS l.html_path,
                  pyStripS l.listing_page_url, l.seed_row_index, l.crawl_date⟩ :
                  CandidateRow)) := hcon'
            rw [List.mem_map] at hcon2
            obtain ⟨nu, hnu, hceq⟩ := hcon2
            refine ⟨c, ?_, ?_⟩
            · rw [List.mem_filter]
              refine ⟨hcc, ?_⟩
              rw [← hceq]
              show (pyStripS l.html_path != "") = true
              rw [bne_iff_ne]
              exact hb1
            · rw [← hceq]
              show pyStripS (pyStripS l.html_path) = pyStripS l.html_path
              exact pyStripS_idem _
  have hndc1 : (cd1.map candidateKey).Nodup := by
    rw [hval2]
    exact hC
  have hnewP2 : phase1NewProfessorRows enabled (fun s d b => Except.ok (b.filter (g s d)))
      today2 p1 true (groupCandidates cd1) = [] := by
    rw [List.eq_nil_iff_forall_not_mem]
    intro pr hpr
    unfold phase1NewProfessorRows at hpr
    rw [mem_foldl_append] at hpr
    rcases hpr with hpr | ⟨grp, hgrp, hpg⟩
    · exact List.not_mem_nil pr hpr
    · rw [professorRowsForGroup_resume] at hpg
      by_cases hce : ((sortStr (grp.2.map Prod.fst)).filter
          (fun n => !((existingNamesFor p1 grp.1.1 grp.1.2).contains n))).isEmpty
      · rw [if_pos hce] at hpg
        exact List.not_mem_nil pr hpg
      · rw [if_neg hce] at hpg
        rw [List.mem_map] at hpg
        obtain ⟨nm, hnm, hpreq⟩ := hpg
        have hnm' := (filterNames_pointwise_mem enabled (g grp.1.2 grp.1.1) _ nm).1 hnm
        obtain ⟨hcands2, hlook, hg⟩ := hnm'
        rw [List.mem_filter] at hcands2
        obtain ⟨hallC, hnot2⟩ := hcands2
        have hnc2 : ¬ nm ∈ existingNamesFor p1 grp.1.1 grp.1.2 := by
          intro hm
          rw [← bcontains_iff_mem] at hm
          have hbe : (!((existingNamesFor p1 grp.1.1 grp.1.2).contains nm)) = true := hnot2
          rw [hm] at hbe
          exact Bool.noConfusion hbe
        have hnc1 : ¬ nm ∈ existingNamesFor storeP grp.1.1 grp.1.2 := by
          intro hm
          apply hnc2
          rw [mem_existingNamesFor] at hm ⊢
          obtain ⟨r, hrm, hre⟩ := hm
          exact ⟨r, by rw [hval3]; exact List.mem_append.2 (Or.inl hrm), hre⟩
        have hcands1 : nm ∈ (sortStr (grp.2.map Prod.fst)).filter
            (fun n => !((existingNamesFor storeP grp.1.1 grp.1.2).contains n)) := by
          rw [List.mem_filter]
          refine ⟨hallC, ?_⟩
          show (!((existingNamesFor storeP grp.1.1 grp.1.2).contains nm)) = true
          have hcf : (existingNamesFor storeP grp.1.1 grp.1.2).contains nm = false := by
            by_contra hb
            rw [Bool.not_eq_false] at hb
            exact hnc1 ((bcontains_iff_mem _ _).1 hb)
          rw [hcf]
          rfl
        have hacc1 : nm ∈ filterNamesWithDeepseek enabled
            (fun b => Except.ok (b.filter (g grp.1.2 grp.1.1)))
            ((sortStr (grp.2.map Prod.fst)).filter
              (fun n => !((existingNamesFor storeP grp.1.1 grp.1.2).contains n))) :=
          (filterNames_pointwise_mem enabled (g grp.1.2 grp.1.1) _ nm).2 ⟨hcands1, hlook, hg⟩
        have hrow : (⟨grp.1.1, grp.1.2, if nameTypeS nm = "zh" then nm else "",
            if nameTypeS nm = "en" then nm else "", "", "phase1_discovery", today⟩ :
              ProfessorRow)
            ∈ phase1NewProfessorRows enabled (fun s d b => Except.ok (b.filter (g s d)))
              today storeP true (groupCandidates cd1) := by
          unfold phase1NewProfessorRows
          rw [mem_foldl_append]
          refine Or.inr ⟨grp, hgrp, ?_⟩
          rw [professorRowsForGroup_resume]
          have hne1 : ¬ ((sortStr (grp.2.map Prod.fst)).filter
              (fun n => !((existingNamesFor storeP grp.1.1 grp.1.2).contains n))).isEmpty
                = true := by
            rw [List.isEmpty_iff]
            exact List.ne_nil_of_mem hcands1
          rw [if_neg hne1]
          rw [List.mem_map]
          exact ⟨nm, hacc1, rfl⟩
        have hrowp1 : (⟨grp.1.1, grp.1.2, if nameTypeS nm = "zh" then nm else "",
            if nameTypeS nm = "en" then nm else "", "", "phase1_discovery", today⟩ :
              ProfessorRow) ∈ p1 := by
          rw [hval3]
          exact List.mem_append.2 (Or.inr hrow)
        have hstrip : pyStripS nm = nm ∧ nm ≠ "" := by
          rw [mem_sortStr, List.mem_map] at hallC
          obtain ⟨pr2, hpr2, hpr2eq⟩ := hallC
          have hinv := groupCandidates_names cd1 grp hgrp pr2 hpr2
          rw [hpr2eq] at hinv
          exact hinv
        apply hnc2
        rw [mem_existingNamesFor]
        refine ⟨_, hrowp1, ?_⟩
        rcases looksLike_nameType nm.data hlook with hty | hty
        · have hty' : nameTypeS nm = "zh" := hty
          have hnz : (⟨grp.1.1, grp.1.2, if nameTypeS nm = "zh" then nm else "",
              if nameTypeS nm = "en" then nm else "", "", "phase1_discovery", today⟩ :
                ProfessorRow).name_zh = nm := by
            rw [show (⟨grp.1.1, grp.1.2, if nameTypeS nm = "zh" then nm else "",
              if nameTypeS nm = "en" then nm else "", "", "phase1_discovery", today⟩ :
                ProfessorRow).name_zh = (if nameTypeS nm = "zh" then nm else "") from rfl]
            rw [if_pos hty']
          unfold entryNames
          rw [if_pos ⟨rfl, rfl⟩]
          apply List.mem_append.2
          left
          rw [hnz, hstrip.1, if_pos hstrip.2]
          exact List.mem_singleton.2 rfl
        · have hty' : nameTypeS nm = "en" := hty
          have hne : (⟨grp.1.1, grp.1.2, if nameTypeS nm = "zh" then nm else "",
              if nameTypeS nm = "en" then nm else "", "", "phase1_discovery", today⟩ :
                ProfessorRow).name_en = nm := by
            rw [show (⟨grp.1.1, grp.1.2, if nameTypeS nm = "zh" then nm else "",
              if nameTypeS nm = "en" then nm else "", "", "phase1_discovery", today⟩ :
                ProfessorRow).name_en = (if nameTypeS nm = "en" then nm else "") from rfl]
            rw [if_pos hty']
          unfold entryNames
          rw [if_pos ⟨rfl, rfl⟩]
          apply List.mem_append.2
          right
          rw [hne, hstrip.1, if_pos hstrip.2]
          exact List.mem_singleton.2 rfl
  have hndp1 : (p1.map professorKey).Nodup := by
    rw [hval3]
    exact hP
  rw [phase1Run_resume, hnewL2]
  simp only [List.append_nil]
  rw [values_fromRowsLast_of_nodup listingKey l1 hndl1, hnewC2]
  simp only [List.append_nil]
  rw [values_fromRowsLast_of_nodup candidateKey cd1 hndc1, hnewP2]
  simp only [List.append_nil]
  rw [values_fromRowsFirst_of_nodup professorKey p1 hndp1]

/-- C1: rerun idempotence of the three phases in resume mode, amended.
Phase1 reruns identically when the classification capability decides
per name, crawl rows carry their seed index, and the merged stores are
free of natural-key collisions; phase2 reruns identically when the
enrichment collaborator preserves each record's natural key; a phase3
run that succeeded (it found no pending rows — any pending row crashes
the run) reruns identically unconditionally. -/
theorem c1_amended (crawl : Nat → SeedRow → List ListingRow)
    (pairsOf : String → String → List (String × String))
    (htmlOf : String → Option String) (enabled : Bool)
    (g : String → String → String → Bool) (today today2 : String)
    (seedStart : Nat) (seeds : List SeedRow)
    (storeL : List ListingRow) (storeC : List CandidateRow) (storeP : List ProfessorRow)
    (l1 : List ListingRow) (cd1 : List CandidateRow) (p1 : List ProfessorRow)
    (enrich : ProfessorRow → EnrichedRow) (names : List ProfessorRow)
    (existingRows : List EnrichedRow)
    (enabled3 : Bool) (oracle3 : String → Except Unit ClassifyPayload)
    (rows existingN : List EnrichedRow) (existingR : List ReviewRow)
    (n : List EnrichedRow) (rv : List ReviewRow)
    (hidx : ∀ (i : Nat) (s : SeedRow), ∀ r ∈ crawl i s, r.seed_row_index = i)
    (hr1 : phase1Run crawl pairsOf htmlOf enabled
        (fun s d b => Except.ok (b.filter (g s d))) today seedStart true seeds
        storeL storeC storeP = (l1, cd1, p1))
    (hL : ((storeL ++ phase1ListingNew crawl seedStart true storeL seeds).map
        listingKey).Nodup)
    (hC : ((storeC ++ phase1CandidatesNew pairsOf htmlOf true storeC l1).map
        candidateKey).Nodup)
    (hP : ((storeP ++ phase1NewProfessorRows enabled
        (fun s d b => Except.ok (b.filter (g s d))) today storeP true
        (groupCandidates cd1)).map professorKey).Nodup)
    (hkey : ∀ p : ProfessorRow, enrichedKey (enrich p) = professorKey p)
    (h3 : phase3Run enabled3 oracle3 today rows existingN existingR true none
        = Except.ok (n, rv)) :
    phase1Run crawl pairsOf htmlOf enabled (fun s d b => Except.ok (b.filter (g s d)))
        today2 seedStart true seeds l1 cd1 p1 = (l1, cd1, p1)
    ∧ phase2Run enrich names (phase2Run enrich names existingRows true none) true none
        = phase2Run enrich names existingRows true none
    ∧ phase3Run enabled3 oracle3 today2 rows n rv true none = Except.ok (n, rv) :=
  ⟨phase1_idem crawl pairsOf htmlOf enabled g today today2 seedStart seeds
      storeL storeC storeP l1 cd1 p1 hidx hr1 hL hC hP,
   phase2_idem enrich names existingRows hkey,
   phase3_idem enabled3 oracle3 today today2 rows existingN existingR n rv h3⟩

/-- C1 counterexample: phase2 rerun idempotence fails outright when the
enrichment changes a record's natural key — two professor rows whose
enriched rows collide make the second resumed run rewrite a different
record under the shared key than the first. -/
theorem c1_counterexample :
    phase2Run c1EnrichCex [c1A, c1B]
        (phase2Run c1EnrichCex [c1A, c1B] [] true none) true none
      ≠ phase2Run c1EnrichCex [c1A, c1B] [] true none := by
  decide

/-- Concrete instance of the amended C1 theorem: empty seed list and
stores, a rejecting classifier, a key-preserving enrichment and an
empty phase3 input, with every hypothesis discharged. -/
theorem c1_amended_witness :
    phase1Run c1Crawl (fun _ _ => []) (fun _ => none) false
        (fun s d b => Except.ok (b.filter (c1G s d))) "d2" 0 true [] [] [] []
      = ([], [], [])
    ∧ phase2Run c1EnrichW [] (phase2Run c1EnrichW [] [] true none) true none
      = phase2Run c1EnrichW [] [] true none
    ∧ phase3Run false (fun _ => Except.error ()) "d2" [] [] [] true none
      = Except.ok ([], []) :=
  c1_amended c1Crawl (fun _ _ => []) (fun _ => none) false c1G "d1" "d2" 0 []
    [] [] [] [] [] [] c1EnrichW [] [] false (fun _ => Except.error ()) [] [] [] [] []
    (fun i s r hr => absurd hr (List.not_mem_nil r))
    rfl (by decide) (by decide) (by decide)
    (fun p => rfl) rfl

end PkuCv
